import Mathlib

/-!
# Verification of the `use-params` float/bit-packing codec

A shallow embedding of the codec shipped in the `use-params` repository
(the bundled `src/binary.ts` and `src/float.ts` sections of
`src/multiParams.test.ts`, lines 730-1366), together with proofs of the
testable properties stated in the specification.

Modelling conventions:
* An IEEE-754 double is represented by its 64-bit pattern, a `Nat < 2^64`;
  this is exactly the view the source takes of doubles (it only ever reads
  and writes them through a `DataView` as raw bits).
* JS `Number` bitwise operators (`&`, `|`, `<<`, `>>`) convert their
  operands with ToInt32/ToUint32 and wrap to 32-bit two's complement; they
  are embedded by `jsAnd`, `jsOr`, `jsShl`, `jsShr` below.
* JS `BigInt` values appearing in the codec are non-negative at every use
  site (mantissas and masks), so they are embedded as `Nat`; `BigInt`
  shifts by a possibly negative count are `bigShl`/`bigShr`.
* Fallible operations (`throw`) are embedded as `Option`/sum results; the
  error value carries the buffer state at the moment of the throw.
-/

namespace UseParams

/-! ## ECMAScript 32-bit integer semantics -/

/-- ECMAScript ToUint32: wrap an integer to `[0, 2^32)`. -/
def toUint32 (n : Int) : Nat := (n % (2^32 : Int)).toNat

/-- ECMAScript ToInt32: wrap an integer to `[-2^31, 2^31)`. -/
def toInt32 (n : Int) : Int :=
  let u := toUint32 n
  if u < 2^31 then (u : Int) else (u : Int) - 2^32

/-- ECMAScript ToUint8: wrap to a byte, as done by `new Uint8Array(array)`. -/
def toUint8 (n : Int) : Nat := (n % (2^8 : Int)).toNat

/-- JS `a & b` on numbers: ToInt32 both sides, bitwise and on the
two's-complement representation (computed on the unsigned representatives). -/
def jsAnd (a b : Int) : Int := toInt32 ((Nat.land (toUint32 a) (toUint32 b) : Nat) : Int)

/-- JS `a | b` on numbers. -/
def jsOr (a b : Int) : Int := toInt32 ((Nat.lor (toUint32 a) (toUint32 b) : Nat) : Int)

/-- JS `a << b` on numbers: shift count is `ToUint32 b mod 32`, result wraps. -/
def jsShl (a b : Int) : Int := toInt32 (((toUint32 a) <<< (toUint32 b % 32) : Nat) : Int)

/-- JS `a >> b` on numbers: sign-propagating (arithmetic) right shift of the
ToInt32 value, i.e. floor division by the power of two.  `Int` division in
Lean is Euclidean division, which agrees with floor division for a positive
divisor. -/
def jsShr (a b : Int) : Int := (toInt32 a) / ((2:Int) ^ (toUint32 b % 32))

/-! ## `src/binary.ts`: URL-safe base64 -/

/-- `BASE64_CHARS` from binary.ts (URL-safe alphabet, no `+` `/` `=`). -/
def BASE64_CHARS : List Char :=
  "ABCDEFGHIJKLMNOPQRSTUVWXYZabcdefghijklmnopqrstuvwxyz0123456789-_".toList

/-- `BASE64_LOOKUP.get c`: the index of `c` in the alphabet, if present
(the JS `Map` built from the alphabet maps each character to its index). -/
def BASE64_LOOKUP (c : Char) : Option Nat := BASE64_CHARS.indexOf? c

/-- `BASE64_CHARS[k]` (always called with `k < 64` in the source). -/
def b64chr (k : Nat) : Char := BASE64_CHARS.getD k ' '

/-- `BASE64_LOOKUP.get(c) ?? 0`. -/
def b64val (c : Char) : Nat := (BASE64_LOOKUP c).getD 0

/-- `base64Encode` from binary.ts.  The input is a `Uint8Array`, so every
entry is `< 256` and the JS `Number` bit operations on the packed 24-bit
group are exact; they are written as `Nat` operations.  The loop consumes
three bytes per iteration; the `i - 2 < bytes.length` / `i - 1 <
bytes.length` guards emit only 2 (resp. 3) characters for a trailing group
of 1 (resp. 2) bytes, so the four match arms below are the loop's cases. -/
def base64Encode : List Nat → List Char
  | [] => []
  | [b0] =>
    let n := b0 <<< 16
    [b64chr (n >>> 18 &&& 63), b64chr (n >>> 12 &&& 63)]
  | [b0, b1] =>
    let n := b0 <<< 16 ||| b1 <<< 8
    [b64chr (n >>> 18 &&& 63), b64chr (n >>> 12 &&& 63), b64chr (n >>> 6 &&& 63)]
  | b0 :: b1 :: b2 :: rest =>
    let n := b0 <<< 16 ||| b1 <<< 8 ||| b2
    b64chr (n >>> 18 &&& 63) :: b64chr (n >>> 12 &&& 63) ::
      b64chr (n >>> 6 &&& 63) :: b64chr (n &&& 63) :: base64Encode rest

/-- The 4-character-chunk loop of `base64Decode`.  Character slots past the
end of the string read as `undefined`, and `BASE64_LOOKUP.get(undefined) ??
0` is `0`; the `i + 2 < str.length` / `i + 3 < str.length` guards push 1
(resp. 2) bytes for a trailing chunk of 1 or 2 (resp. 3) characters. -/
def base64DecodeLoop : List Char → List Nat
  | [] => []
  | [a] =>
    let n := b64val a <<< 18
    [n >>> 16 &&& 255]
  | [a, b] =>
    let n := b64val a <<< 18 ||| b64val b <<< 12
    [n >>> 16 &&& 255]
  | [a, b, c] =>
    let n := b64val a <<< 18 ||| b64val b <<< 12 ||| b64val c <<< 6
    [n >>> 16 &&& 255, n >>> 8 &&& 255]
  | a :: b :: c :: d :: rest =>
    let n := b64val a <<< 18 ||| b64val b <<< 12 ||| b64val c <<< 6 ||| b64val d
    (n >>> 16 &&& 255) :: (n >>> 8 &&& 255) :: (n &&& 255) :: base64DecodeLoop rest

/-- `base64Decode` from binary.ts: strip trailing `=` defensively
(`str.replace(/=+$/, "")`), then decode 4-character chunks. -/
def base64Decode (s : List Char) : List Nat :=
  base64DecodeLoop ((s.reverse.dropWhile (· == '=')).reverse)

/-! ## `src/float.ts`: IEEE-754 decomposition -/

/-- The `{neg, exp, mant}` record produced by `toFloat` and consumed by
`fromFloat`; `toFixedPoint`/`fromFixedPoint` use the same shape (the source
is untyped JS and passes structurally identical objects). -/
structure DecomposedFloat where
  neg : Bool
  exp : Int
  mant : Nat
  deriving Repr, DecidableEq

/-- A quantized value relative to a shared exponent: same record shape. -/
abbrev FixedPointValue := DecomposedFloat

/-- `toFloat` from float.ts, on the 64-bit pattern of the double:
`neg` is `byte0 & 0x80` (bit 63), `exp` is the 11-bit field at bits 52..62
(`(getUint16(0) & 0x7ff0) >> 4`) minus the bias 1023, `mant` is the low 52
bits (`getBigUint64(0) & 0xfffffffffffffn`).  The byte/word masks are
written as the equivalent div/mod extractions. -/
def toFloat (bits : Nat) : DecomposedFloat where
  neg := decide (bits / 2^63 % 2 = 1)
  exp := ((bits / 2^52 % 2^11 : Nat) : Int) - 1023
  mant := bits % 2^52

/-- `fromFloat` from float.ts: reassemble
`(neg ? 0x8000000000000000n : 0n) | BigInt(exp + 1023) << 52n | mant` and
store it with `setBigUint64`, which wraps modulo `2^64` (two's complement).
The `BigInt` ors are on an unbounded two's-complement representation, which
is exactly `Int.lor`; the final wrap is `Int.emod (2^64)`. -/
def fromFloat (d : DecomposedFloat) : Nat :=
  ((Int.lor (Int.lor (if d.neg then 2^63 else 0) ((d.exp + 1023) <<< (52 : Int)))
    (d.mant : Int)) % (2^64 : Int)).toNat

/-! ## `src/float.ts`: fixed-point quantizer -/

/-- JS `m << s` on a non-negative BigInt with a possibly negative shift
count (a negative left shift is a right shift in ECMAScript). -/
def bigShl (m : Nat) (s : Int) : Nat := if 0 ≤ s then m <<< s.toNat else m >>> (-s).toNat

/-- JS `m >> s` on a non-negative BigInt, possibly negative shift count. -/
def bigShr (m : Nat) (s : Int) : Nat := if 0 ≤ s then m >>> s.toNat else m <<< (-s).toNat

/-- Length of `m.toString(2)` for `m ≠ 0`: the binary bit length.
Implemented with a fuel argument (the value itself) so that it is a
structural recursion the kernel can evaluate. -/
def jsBitLenGo : Nat → Nat → Nat
  | _, 0 => 0
  | 0, _+1 => 0
  | fuel+1, m+1 => jsBitLenGo fuel ((m+1)/2) + 1

/-- Binary bit length: `jsBitLen m = ⌊log2 m⌋ + 1` for `m ≠ 0`, `0` for 0. -/
def jsBitLen (m : Nat) : Nat := jsBitLenGo m m

/-- The options record of `toFixedPoint`: `{ mantBits, exp? }`
(`encodeFixedPoints` always passes `exp`). -/
structure FixedPointOpts where
  mantBits : Nat
  exp : Option Int

/-- `toFixedPoint` from float.ts.  Fails (`throw`) when the value's own
exponent plus one exceeds the supplied shared exponent.  `roundUp` is the
bit just below the cut (`mant & 1n << BigInt(downshiftBy - 1)`), and the
explicit leading-one marker is or-ed in at position
`mantBits - 1 - (exp - fExp)`. -/
def toFixedPoint (f : DecomposedFloat) (opts : FixedPointOpts) : Option FixedPointValue :=
  let fExp := f.exp + 1
  let exp := opts.exp.getD fExp
  if fExp > exp then none
  else
    let downshiftBy : Int := exp - fExp + 53 - opts.mantBits
    let roundUp := Nat.land f.mant (bigShl 1 (downshiftBy - 1))
    let mant1 := bigShr f.mant downshiftBy
    let mant2 := if roundUp ≠ 0 then mant1 + 1 else mant1
    let mant3 := Nat.lor mant2 (bigShl 1 ((opts.mantBits : Int) - 1 - (exp - fExp)))
    some { neg := f.neg, exp := exp, mant := mant3 }

/-- `fromFixedPoint` from float.ts.  `nonZeroBits` is
`mant ? mant.toString(2).length : 0`; a zero mantissa decodes to signed
zero (`exp = -1023`, `mant = 0`), otherwise the marker bit is stripped
(`mant & (1n << BigInt(nonZeroBits - 1)) - 1n`) and the remaining bits are
shifted back into 52-bit position. -/
def fromFixedPoint (f : FixedPointValue) (mantBits : Nat) : DecomposedFloat :=
  let nonZeroBits : Nat := if f.mant ≠ 0 then jsBitLen f.mant else 0
  let exp := f.exp - ((mantBits : Int) - nonZeroBits) - 1
  if f.mant = 0 then { neg := f.neg, exp := -1023, mant := 0 }
  else
    let mant1 := Nat.land f.mant (bigShl 1 ((nonZeroBits : Int) - 1) - 1)
    let mant2 := bigShl mant1 (f.exp - exp)
    let mant3 := bigShl mant2 ((52 : Int) - mantBits)
    { neg := f.neg, exp := exp, mant := mant3 }

/-! ## `src/binary.ts`: BitBuffer -/

/-- The `BitBuffer` class state.  `buf` entries are JS numbers produced by
`|=`, hence 32-bit signed integers (they stay in `[0, 256)` under normal
use, but `encodeInt` can store a negative via sign extension, so the model
keeps `Int`).  `end` is the high-water mark in bits. -/
structure BitBuffer where
  buf : List Int
  byteOffset : Nat
  bitOffset : Nat
  «end» : Nat
  deriving Repr, DecidableEq

namespace BitBuffer

/-- `new BitBuffer(numBytes)`: `Array(numBytes || 0).fill(0)`, cursors 0. -/
def new (numBytes : Nat := 0) : BitBuffer :=
  { buf := List.replicate numBytes 0, byteOffset := 0, bitOffset := 0, «end» := 0 }

/-- The `totalBitOffset` getter. -/
def totalBitOffset (b : BitBuffer) : Nat := b.byteOffset * 8 + b.bitOffset

/-- `seek(totalBitOffset)`: `byteOffset = t >> 3`, `bitOffset = t & 7`
(the cursor is a non-negative bit position, so the Int32 shift and mask
are plain division and remainder). -/
def seek (b : BitBuffer) (t : Nat) : BitBuffer :=
  { b with byteOffset := t / 8, bitOffset := t % 8 }

/-- JS `buf[i] = v` on an array: in-range assignment, or growth with holes
(holes read as `undefined`, which every consumer coerces to 0). -/
def jsArraySet (l : List Int) (i : Nat) (v : Int) : List Int :=
  if i < l.length then l.set i v
  else l ++ List.replicate (i - l.length) 0 ++ [v]

/-- The `while (numBits > 0)` loop of `encodeInt`, as a function of the
captured locals.  The `8 ≤ bitOffset` early exit is a totality device
only: the class keeps `bitOffset < 8` at all times (the loop resets it at
8 and `seek` masks with 7), and from such states the guard never fires
(in JS the loop would not terminate from an invalid state). -/
def encodeIntLoop (buf : List Int) (byteOffset bitOffset : Nat) (n : Int) (numBits : Nat) :
    List Int × Nat × Nat :=
  if numBits = 0 ∨ 8 ≤ bitOffset then (buf, byteOffset, bitOffset)
  else
    let buf1 := if buf.length ≤ byteOffset then buf ++ [0] else buf
    let remainingBitsInByte := 8 - bitOffset
    let bitsToWrite := min numBits remainingBitsInByte
    let bitsLeftInByte := remainingBitsInByte - bitsToWrite
    let bitsLeftToWrite := numBits - bitsToWrite
    let mask := jsShl (jsShl 1 bitsToWrite - 1) bitsLeftToWrite
    let shiftedBitsToWrite := jsShr (jsAnd n mask) bitsLeftToWrite
    let buf2 := jsArraySet buf1 byteOffset
      (jsOr (buf1.getD byteOffset 0) (jsShl shiftedBitsToWrite bitsLeftInByte))
    let n' := jsAnd n (jsShl 1 bitsLeftToWrite - 1)
    if bitOffset + bitsToWrite = 8 then
      encodeIntLoop buf2 (byteOffset + 1) 0 n' (numBits - bitsToWrite)
    else
      encodeIntLoop buf2 byteOffset (bitOffset + bitsToWrite) n' (numBits - bitsToWrite)
  termination_by numBits
  decreasing_by all_goals (simp_wf; omega)

/-- `encodeInt(n, numBits)`: run the loop, then
`if (this.totalBitOffset > this.end) this.end = this.totalBitOffset`. -/
def encodeInt (b : BitBuffer) (n : Int) (numBits : Nat) : BitBuffer :=
  let r := encodeIntLoop b.buf b.byteOffset b.bitOffset n numBits
  let b' : BitBuffer := { buf := r.1, byteOffset := r.2.1, bitOffset := r.2.2, «end» := b.«end» }
  if b'.«end» < b'.totalBitOffset then { b' with «end» := b'.totalBitOffset } else b'

/-- The `while (numBits > 0)` loop of `decodeInt` (same totality guard).
Reading `buf[byteOffset]` past the end yields `undefined`, and
`undefined & mask` is `0`, hence `getD _ 0`. -/
def decodeIntLoop (buf : List Int) (byteOffset bitOffset : Nat) (n : Int) (numBits : Nat) :
    Nat × Nat × Int :=
  if numBits = 0 ∨ 8 ≤ bitOffset then (byteOffset, bitOffset, n)
  else
    let remainingBitsInByte := 8 - bitOffset
    let bitsToRead := min numBits remainingBitsInByte
    let bitsLeftInByte := remainingBitsInByte - bitsToRead
    let mask := jsShl (jsShl 1 bitsToRead - 1) bitsLeftInByte
    let bits := jsShr (jsAnd (buf.getD byteOffset 0) mask) bitsLeftInByte
    let n' := jsOr (jsShl n bitsToRead) bits
    if bitOffset + bitsToRead = 8 then
      decodeIntLoop buf (byteOffset + 1) 0 n' (numBits - bitsToRead)
    else
      decodeIntLoop buf byteOffset (bitOffset + bitsToRead) n' (numBits - bitsToRead)
  termination_by numBits
  decreasing_by all_goals (simp_wf; omega)

/-- `decodeInt(numBits)`: returns the advanced buffer and the value. -/
def decodeInt (b : BitBuffer) (numBits : Nat) : BitBuffer × Int :=
  let r := decodeIntLoop b.buf b.byteOffset b.bitOffset 0 numBits
  ({ b with byteOffset := r.1, bitOffset := r.2.1 }, r.2.2)

/-- The loop of `encodeBigInt`: the BigInt `n`, mask and shifts are
arbitrary precision (every BigInt here is non-negative, hence `Nat`); the
extracted chunk is converted with `Number(...)` (exact, it is `< 256`) and
merged into the byte with the Number `|=` and `<<`. -/
def encodeBigIntLoop (buf : List Int) (byteOffset bitOffset : Nat) (n : Nat) (numBits : Nat) :
    List Int × Nat × Nat :=
  if numBits = 0 ∨ 8 ≤ bitOffset then (buf, byteOffset, bitOffset)
  else
    let buf1 := if buf.length ≤ byteOffset then buf ++ [0] else buf
    let remainingBitsInByte := 8 - bitOffset
    let bitsToWrite := min numBits remainingBitsInByte
    let bitsLeftInByte := remainingBitsInByte - bitsToWrite
    let bitsLeftToWrite := numBits - bitsToWrite
    let mask := ((1 <<< bitsToWrite) - 1) <<< bitsLeftToWrite
    let shiftedBitsToWrite := (Nat.land n mask) >>> bitsLeftToWrite
    let buf2 := jsArraySet buf1 byteOffset
      (jsOr (buf1.getD byteOffset 0) (jsShl (shiftedBitsToWrite : Int) bitsLeftInByte))
    let n' := Nat.land n ((1 <<< bitsLeftToWrite) - 1)
    if bitOffset + bitsToWrite = 8 then
      encodeBigIntLoop buf2 (byteOffset + 1) 0 n' (numBits - bitsToWrite)
    else
      encodeBigIntLoop buf2 byteOffset (bitOffset + bitsToWrite) n' (numBits - bitsToWrite)
  termination_by numBits
  decreasing_by all_goals (simp_wf; omega)

/-- `encodeBigInt(n, numBits)` with the high-water-mark update. -/
def encodeBigInt (b : BitBuffer) (n : Nat) (numBits : Nat) : BitBuffer :=
  let r := encodeBigIntLoop b.buf b.byteOffset b.bitOffset n numBits
  let b' : BitBuffer := { buf := r.1, byteOffset := r.2.1, bitOffset := r.2.2, «end» := b.«end» }
  if b'.«end» < b'.totalBitOffset then { b' with «end» := b'.totalBitOffset } else b'

/-- The loop of `decodeBigInt`: the byte-level mask and extraction are
Number (Int32) operations; the chunk is lifted with `BigInt(...)`
(non-negative, since the mask is) and accumulated exactly. -/
def decodeBigIntLoop (buf : List Int) (byteOffset bitOffset : Nat) (n : Nat) (numBits : Nat) :
    Nat × Nat × Nat :=
  if numBits = 0 ∨ 8 ≤ bitOffset then (byteOffset, bitOffset, n)
  else
    let remainingBitsInByte := 8 - bitOffset
    let bitsToRead := min numBits remainingBitsInByte
    let bitsLeftInByte := remainingBitsInByte - bitsToRead
    let mask := jsShl (jsShl 1 bitsToRead - 1) bitsLeftInByte
    let bits := (jsShr (jsAnd (buf.getD byteOffset 0) mask) bitsLeftInByte).toNat
    let n' := (n <<< bitsToRead) ||| bits
    if bitOffset + bitsToRead = 8 then
      decodeBigIntLoop buf (byteOffset + 1) 0 n' (numBits - bitsToRead)
    else
      decodeBigIntLoop buf byteOffset (bitOffset + bitsToRead) n' (numBits - bitsToRead)
  termination_by numBits
  decreasing_by all_goals (simp_wf; omega)

/-- `decodeBigInt(numBits)`. -/
def decodeBigInt (b : BitBuffer) (numBits : Nat) : BitBuffer × Nat :=
  let r := decodeBigIntLoop b.buf b.byteOffset b.bitOffset 0 numBits
  ({ b with byteOffset := r.1, bitOffset := r.2.1 }, r.2.2)

/-- `toBytes()`: `Math.ceil(end / 8)` bytes of storage
(`this.buf.slice(0, numBytes)` = `take`), coerced to unsigned bytes by the
`Uint8Array` constructor. -/
def toBytes (b : BitBuffer) : List Nat :=
  (b.buf.take ((b.«end» + 7) / 8)).map toUint8

/-- `BitBuffer.fromBytes(bytes)`: high-water mark `bytes.length * 8`. -/
def fromBytes (bytes : List Nat) : BitBuffer :=
  { buf := bytes.map (fun x => (x : Int)), byteOffset := 0, bitOffset := 0,
    «end» := bytes.length * 8 }

/-- `toBase64()`. -/
def toBase64 (b : BitBuffer) : List Char := base64Encode b.toBytes

/-- `BitBuffer.fromBase64(str)`. -/
def fromBase64 (s : List Char) : BitBuffer := fromBytes (base64Decode s)

/-- Fuel-indexed structural clone of `encodeIntLoop` (identical body; the
fuel only bounds the recursion depth so the kernel can evaluate concrete
instances). -/
def encodeIntFuel : Nat → List Int → Nat → Nat → Int → Nat → List Int × Nat × Nat
  | 0, buf, byteOffset, bitOffset, _, _ => (buf, byteOffset, bitOffset)
  | fuel + 1, buf, byteOffset, bitOffset, n, numBits =>
    if numBits = 0 ∨ 8 ≤ bitOffset then (buf, byteOffset, bitOffset)
    else
      let buf1 := if buf.length ≤ byteOffset then buf ++ [0] else buf
      let remainingBitsInByte := 8 - bitOffset
      let bitsToWrite := min numBits remainingBitsInByte
      let bitsLeftInByte := remainingBitsInByte - bitsToWrite
      let bitsLeftToWrite := numBits - bitsToWrite
      let mask := jsShl (jsShl 1 bitsToWrite - 1) bitsLeftToWrite
      let shiftedBitsToWrite := jsShr (jsAnd n mask) bitsLeftToWrite
      let buf2 := jsArraySet buf1 byteOffset
        (jsOr (buf1.getD byteOffset 0) (jsShl shiftedBitsToWrite bitsLeftInByte))
      let n' := jsAnd n (jsShl 1 bitsLeftToWrite - 1)
      if bitOffset + bitsToWrite = 8 then
        encodeIntFuel fuel buf2 (byteOffset + 1) 0 n' (numBits - bitsToWrite)
      else
        encodeIntFuel fuel buf2 byteOffset (bitOffset + bitsToWrite) n' (numBits - bitsToWrite)

/-- Fuel-indexed structural clone of `decodeIntLoop`. -/
def decodeIntFuel : Nat → List Int → Nat → Nat → Int → Nat → Nat × Nat × Int
  | 0, _, byteOffset, bitOffset, n, _ => (byteOffset, bitOffset, n)
  | fuel + 1, buf, byteOffset, bitOffset, n, numBits =>
    if numBits = 0 ∨ 8 ≤ bitOffset then (byteOffset, bitOffset, n)
    else
      let remainingBitsInByte := 8 - bitOffset
      let bitsToRead := min numBits remainingBitsInByte
      let bitsLeftInByte := remainingBitsInByte - bitsToRead
      let mask := jsShl (jsShl 1 bitsToRead - 1) bitsLeftInByte
      let bits := jsShr (jsAnd (buf.getD byteOffset 0) mask) bitsLeftInByte
      let n' := jsOr (jsShl n bitsToRead) bits
      if bitOffset + bitsToRead = 8 then
        decodeIntFuel fuel buf (byteOffset + 1) 0 n' (numBits - bitsToRead)
      else
        decodeIntFuel fuel buf byteOffset (bitOffset + bitsToRead) n' (numBits - bitsToRead)

/-- Fuel-indexed structural clone of `encodeBigIntLoop`. -/
def encodeBigIntFuel : Nat → List Int → Nat → Nat → Nat → Nat → List Int × Nat × Nat
  | 0, buf, byteOffset, bitOffset, _, _ => (buf, byteOffset, bitOffset)
  | fuel + 1, buf, byteOffset, bitOffset, n, numBits =>
    if numBits = 0 ∨ 8 ≤ bitOffset then (buf, byteOffset, bitOffset)
    else
      let buf1 := if buf.length ≤ byteOffset then buf ++ [0] else buf
      let remainingBitsInByte := 8 - bitOffset
      let bitsToWrite := min numBits remainingBitsInByte
      let bitsLeftInByte := remainingBitsInByte - bitsToWrite
      let bitsLeftToWrite := numBits - bitsToWrite
      let mask := ((1 <<< bitsToWrite) - 1) <<< bitsLeftToWrite
      let shiftedBitsToWrite := (Nat.land n mask) >>> bitsLeftToWrite
      let buf2 := jsArraySet buf1 byteOffset
        (jsOr (buf1.getD byteOffset 0) (jsShl (shiftedBitsToWrite : Int) bitsLeftInByte))
      let n' := Nat.land n ((1 <<< bitsLeftToWrite) - 1)
      if bitOffset + bitsToWrite = 8 then
        encodeBigIntFuel fuel buf2 (byteOffset + 1) 0 n' (numBits - bitsToWrite)
      else
        encodeBigIntFuel fuel buf2 byteOffset (bitOffset + bitsToWrite) n' (numBits - bitsToWrite)

/-- Fuel-indexed structural clone of `decodeBigIntLoop`. -/
def decodeBigIntFuel : Nat → List Int → Nat → Nat → Nat → Nat → Nat × Nat × Nat
  | 0, _, byteOffset, bitOffset, n, _ => (byteOffset, bitOffset, n)
  | fuel + 1, buf, byteOffset, bitOffset, n, numBits =>
    if numBits = 0 ∨ 8 ≤ bitOffset then (byteOffset, bitOffset, n)
    else
      let remainingBitsInByte := 8 - bitOffset
      let bitsToRead := min numBits remainingBitsInByte
      let bitsLeftInByte := remainingBitsInByte - bitsToRead
      let mask := jsShl (jsShl 1 bitsToRead - 1) bitsLeftInByte
      let bits := (jsShr (jsAnd (buf.getD byteOffset 0) mask) bitsLeftInByte).toNat
      let n' := (n <<< bitsToRead) ||| bits
      if bitOffset + bitsToRead = 8 then
        decodeBigIntFuel fuel buf (byteOffset + 1) 0 n' (numBits - bitsToRead)
      else
        decodeBigIntFuel fuel buf byteOffset (bitOffset + bitsToRead) n' (numBits - bitsToRead)

end BitBuffer

/-! ## Shared-exponent batch encode / decode -/

/-- A `{expBits, mantBits}` precision scheme. -/
structure PrecisionScheme where
  expBits : Nat
  mantBits : Nat
  deriving Repr, DecidableEq

/-- Result of `encodeFixedPoints`: either the updated buffer, or a thrown
`RangeError` carrying the buffer state at the moment of the throw (the JS
object survives the throw and can be observed by the caller). -/
inductive EncodeResult where
  | ok (b : BitBuffer)
  | rangeError (b : BitBuffer)
  deriving Repr, DecidableEq

/-- One step of `Math.max` over a spread argument list (`none` plays the
role of the `-Infinity` starting value). -/
def jsMaxStep (acc : Option Int) (e : Int) : Option Int :=
  some (match acc with | none => e | some m => max m e)

/-- `Math.max(...floats.map(({exp}) => exp + 1))`; `none` models the
`-Infinity` produced for an empty batch. -/
def batchMaxExp (floats : List DecomposedFloat) : Option Int :=
  (floats.map (fun f => f.exp + 1)).foldl jsMaxStep none

/-- `floats.map(f => toFixedPoint(f, { mantBits, exp: maxExp }))`: the JS
`map` callback may throw, in which case the whole map throws at the first
failing element and no later element is quantized. -/
def mapToFixedPoints (opts : FixedPointOpts) : List DecomposedFloat → Option (List FixedPointValue)
  | [] => some []
  | f :: rest =>
    match toFixedPoint f opts with
    | none => none
    | some fp => (mapToFixedPoints opts rest).map (fp :: ·)

/-- `encodeFixedPoints(vals, {expBits, mantBits})` from binary.ts: check
`maxExp >= 1 << expBits - 1` (throwing before anything is written), write
the bias-adjusted shared exponent, quantize the whole batch
(`floats.map(f => toFixedPoint(f, {mantBits, exp: maxExp}))`, which throws
before any sign/mantissa bit is written), then write 1 sign bit and
`mantBits` mantissa bits per value.  For an empty batch `maxExp` is
`-Infinity`: the range check is false and
`(-Infinity + (1 << expBits-1)) & ((1 << expBits) - 1)` is
`ToInt32(-Infinity) & mask = 0`. -/
def BitBuffer.encodeFixedPoints (b : BitBuffer) (vals : List Nat) (scheme : PrecisionScheme) :
    EncodeResult :=
  let floats := vals.map toFloat
  match batchMaxExp floats with
  | none =>
      .ok (b.encodeInt (jsAnd 0 (jsShl 1 (scheme.expBits : Int) - 1)) scheme.expBits)
  | some maxExp =>
      if jsShl 1 ((scheme.expBits : Int) - 1) ≤ maxExp then .rangeError b
      else
        let expToWrite := jsAnd (maxExp + jsShl 1 ((scheme.expBits : Int) - 1))
          (jsShl 1 (scheme.expBits : Int) - 1)
        let b1 := b.encodeInt expToWrite scheme.expBits
        match mapToFixedPoints ⟨scheme.mantBits, some maxExp⟩ floats with
        | none => .rangeError b1
        | some fixedPoints =>
          .ok (fixedPoints.foldl (fun bb fp =>
            (bb.encodeInt (if fp.neg then 1 else 0) 1).encodeBigInt fp.mant scheme.mantBits) b1)

/-- The `for (let i = 0; i < count; i++)` loop of `decodeFixedPoints`. -/
def BitBuffer.decodeFixedPointsLoop (b : BitBuffer) (exp : Int) (scheme : PrecisionScheme) :
    Nat → BitBuffer × List Nat
  | 0 => (b, [])
  | count+1 =>
    let r1 := b.decodeInt 1
    let neg := r1.2 == 1
    let r2 := r1.1.decodeBigInt scheme.mantBits
    let fp : FixedPointValue := { neg := neg, exp := exp, mant := r2.2 }
    let f := fromFixedPoint fp scheme.mantBits
    let rest := BitBuffer.decodeFixedPointsLoop r2.1 exp scheme count
    (rest.1, fromFloat f :: rest.2)

/-- `decodeFixedPoints(count, {expBits, mantBits})`: read the biased shared
exponent once (`exp = expRaw - (1 << expBits - 1)`), then `count`
repetitions of sign bit + mantissa, dequantized and recomposed. -/
def BitBuffer.decodeFixedPoints (b : BitBuffer) (count : Nat) (scheme : PrecisionScheme) :
    BitBuffer × List Nat :=
  let r := b.decodeInt scheme.expBits
  let exp := r.2 - jsShl 1 ((scheme.expBits : Int) - 1)
  BitBuffer.decodeFixedPointsLoop r.1 exp scheme count

/-! ## `createLossyBase64Param` -/

/-- JS `x === y` on two doubles given as bit patterns: any NaN compares
unequal; `+0 === -0`; otherwise the patterns coincide. -/
def isNaNBits (b : Nat) : Bool := b / 2^52 % 2^11 == 2047 && b % 2^52 != 0

/-- Both zero patterns (`+0` is `0`, `-0` is `2^63`), for `b < 2^64`. -/
def isZeroBits (b : Nat) : Bool := b % 2^63 == 0

/-- JS strict equality on doubles-as-bit-patterns (`x < 2^64`). -/
def jsStrictEq (a b : Nat) : Bool :=
  if isNaNBits a || isNaNBits b then false
  else a == b || (isZeroBits a && isZeroBits b)

/-- Result of a param's `encode`: `undefined` (omit the key), a string, or
an exception propagated to the caller (`encode` has no try/catch). -/
inductive ParamEncodeResult where
  | absent
  | val (s : List Char)
  | thrown
  deriving Repr, DecidableEq

/-- The `encode`/`decode` pair returned by `createLossyBase64Param`. -/
structure LossyBase64Param where
  encode : Nat → ParamEncodeResult
  decode : Option (List Char) → Nat

/-- `createLossyBase64Param(defaultValue, scheme)` from float.ts.  On the
decode side, `try { ... } catch { return defaultValue }` wraps a pipeline
in which every step is total in this model (`base64Decode` never fails,
buffer reads past the end yield zero bits, `fromFixedPoint` and
`fromFloat` are total functions), so the catch arm is unreachable and the
body's value is returned directly. -/
def createLossyBase64Param (defaultValue : Nat) (scheme : PrecisionScheme) :
    LossyBase64Param where
  encode := fun value =>
    if jsStrictEq value defaultValue then .absent
    else
      match (BitBuffer.new 0).encodeFixedPoints [value] scheme with
      | .rangeError _ => .thrown
      | .ok buf => .val buf.toBase64
  decode := fun encoded =>
    match encoded with
    | none => defaultValue
    | some s =>
      if s = [] then defaultValue
      else
        let buf := BitBuffer.fromBase64 s
        (buf.decodeFixedPoints 1 scheme).2.headD 0

/-! ## Arithmetic characterizations of the JS operators -/

lemma toUint32_natCast (v : Nat) : toUint32 (v : Int) = v % 2^32 := by
  simp only [toUint32]
  omega

lemma toUint32_natCast_of_lt (v : Nat) (h : v < 2^32) : toUint32 (v : Int) = v := by
  rw [toUint32_natCast, Nat.mod_eq_of_lt h]

lemma toInt32_natCast (v : Nat) (h : v < 2^31) : toInt32 (v : Int) = (v : Int) := by
  have h32 : v < 2^32 := by omega
  simp only [toInt32, toUint32_natCast_of_lt v h32]
  rw [if_pos h]

lemma toUint32_toInt32 (x : Int) : toUint32 (toInt32 x) = toUint32 x := by
  simp only [toInt32, toUint32]
  split <;> omega

/-- `1 << w` for a small shift is exact. -/
lemma jsShl_one (w : Nat) (hw : w < 31) : jsShl 1 (w : Int) = ((2^w : Nat) : Int) := by
  have h1 : toUint32 (1 : Int) = 1 := toUint32_natCast_of_lt 1 (by norm_num)
  have hw32 : w % 2^32 % 32 = w := by omega
  simp only [jsShl, h1, toUint32_natCast, hw32]
  rw [Nat.one_shiftLeft]
  exact toInt32_natCast _ (Nat.pow_lt_pow_right (by norm_num) hw)

/-- `x >> k` on a non-negative in-range value is division. -/
lemma jsShr_nat (x k : Nat) (hx : x < 2^31) (hk : k < 32) :
    jsShr (x : Int) (k : Int) = ((x / 2^k : Nat) : Int) := by
  have hk32 : k % 2^32 % 32 = k := by omega
  simp only [jsShr, toInt32_natCast x hx, toUint32_natCast, hk32]
  rw [show ((2:Int)^k) = ((2^k : Nat) : Int) by push_cast; ring]
  exact (Int.ofNat_ediv x (2^k)).symm

/-- `a | b` of disjoint non-negative fields is addition. -/
lemma jsOr_disjoint (c t d : Nat) (hd : d < 2^t) (h : c * 2^t + d < 2^31) :
    jsOr ((c * 2^t : Nat) : Int) (d : Int) = ((c * 2^t + d : Nat) : Int) := by
  have h1 : c * 2^t < 2^32 := by omega
  have h2 : d < 2^32 := by omega
  simp only [jsOr, toUint32_natCast_of_lt _ h1, toUint32_natCast_of_lt _ h2]
  have hor : c * 2^t ||| d = c * 2^t + d := by
    have := Nat.mul_add_lt_is_or hd c
    rw [Nat.mul_comm c (2^t)]
    omega
  show toInt32 ((c * 2^t ||| d : Nat) : Int) = _
  rw [hor]
  exact toInt32_natCast _ h

/-- Masking with `(2^w - 1) <<< s` extracts the `w`-bit field at offset `s`. -/
lemma nat_and_mask (v w s : Nat) :
    v &&& ((2^w - 1) <<< s) = v / 2^s % 2^w * 2^s := by
  apply Nat.eq_of_testBit_eq
  intro i
  rcases Nat.lt_or_ge i s with hi | hi
  · have h1 : Nat.testBit ((2^w - 1) <<< s) i = false := by
      simp [Nat.testBit_shiftLeft, Nat.not_le.mpr hi]
    have h2 : Nat.testBit (v / 2^s % 2^w * 2^s) i = false := by
      rw [← Nat.shiftLeft_eq, Nat.testBit_shiftLeft]
      simp [Nat.not_le.mpr hi]
    simp [Nat.testBit_and, h1, h2]
  · have h1 : Nat.testBit ((2^w - 1) <<< s) i = decide (i - s < w) := by
      rw [Nat.testBit_shiftLeft, Nat.testBit_two_pow_sub_one]
      simp [hi]
    have h2 : Nat.testBit (v / 2^s % 2^w * 2^s) i
        = (decide (i - s < w) && Nat.testBit v i) := by
      rw [← Nat.shiftLeft_eq, Nat.testBit_shiftLeft]
      simp only [hi, ge_iff_le, Bool.true_and, decide_eq_true_eq,
        Nat.testBit_mod_two_pow, ← Nat.shiftRight_eq_div_pow, Nat.testBit_shiftRight]
      rw [Nat.add_sub_cancel' hi]
      simp [hi, Bool.and_comm]
    rw [Nat.testBit_and, h1, h2]
    cases Nat.testBit v i <;> simp

/-! ## `jsBitLen` bounds -/

lemma jsBitLenGo_spec : ∀ fuel m, m ≤ fuel → m ≠ 0 →
    2^(jsBitLenGo fuel m - 1) ≤ m ∧ m < 2^(jsBitLenGo fuel m) := by
  intro fuel
  induction fuel with
  | zero => intro m hm h0; omega
  | succ f ih =>
    intro m hm h0
    match m, h0 with
    | m+1, _ =>
      show 2^(jsBitLenGo (f+1) (m+1) - 1) ≤ m + 1 ∧ m + 1 < 2^(jsBitLenGo (f+1) (m+1))
      rw [jsBitLenGo]
      rcases Nat.eq_zero_or_pos ((m+1)/2) with hz | hp
      · have hm1 : m = 0 := by omega
        subst hm1
        simp [hz, jsBitLenGo]
      · have hle : (m+1)/2 ≤ f := by omega
        have hne : (m+1)/2 ≠ 0 := by omega
        obtain ⟨h1, h2⟩ := ih ((m+1)/2) hle hne
        set L := jsBitLenGo f ((m+1)/2) with hL
        have hL1 : 1 ≤ L := by
          by_contra hc
          have : L = 0 := by omega
          rw [this] at h2
          omega
        constructor
        · have : 2^L ≤ m + 1 := by
            calc 2^L = 2 * 2^(L-1) := by
                  rw [← pow_succ']
                  congr 1
                  omega
            _ ≤ 2 * ((m+1)/2) := by omega
            _ ≤ m + 1 := by omega
          simpa using this
        · have : m + 1 < 2^(L+1) := by
            have : 2^(L+1) = 2 * 2^L := by rw [pow_succ]; ring
            omega
          simpa using this

lemma jsBitLen_spec (m : Nat) (h : m ≠ 0) :
    2^(jsBitLen m - 1) ≤ m ∧ m < 2^(jsBitLen m) :=
  jsBitLenGo_spec m m le_rfl h

lemma jsBitLen_eq_of (m L : Nat) (hL : 1 ≤ L) (h1 : 2^(L-1) ≤ m) (h2 : m < 2^L) :
    jsBitLen m = L := by
  have hm : m ≠ 0 := by
    have : 0 < 2^(L-1) := Nat.pos_pow_of_pos _ (by norm_num)
    omega
  obtain ⟨b1, b2⟩ := jsBitLen_spec m hm
  set B := jsBitLen m with hB
  have hB1 : 1 ≤ B := by
    by_contra hc
    have : B = 0 := by omega
    rw [this] at b2
    omega
  have c1 : B - 1 < L := by
    have := Nat.lt_of_le_of_lt b1 h2
    exact (Nat.pow_lt_pow_iff_right (by norm_num)).mp this
  have c2 : L - 1 < B := by
    have := Nat.lt_of_le_of_lt h1 b2
    exact (Nat.pow_lt_pow_iff_right (by norm_num)).mp this
  omega

/-! ## Float decomposition round trip (C2) -/

lemma int_lor_natCast (a b : Nat) : Int.lor (a : Int) (b : Int) = ((a ||| b : Nat) : Int) := rfl

/-- `fromFloat` on an in-range record is plain field concatenation. -/
lemma fromFloat_eq (d : DecomposedFloat) (k : Nat) (hk : d.exp + 1023 = (k : Int))
    (hk2 : k < 2^11) (hm : d.mant < 2^52) :
    fromFloat d = (if d.neg then 2^63 else 0) + k * 2^52 + d.mant := by
  have hshift : (d.exp + 1023) <<< (52 : Int) = ((k * 2^52 : Nat) : Int) := by
    rw [hk, show (52 : Int) = ((52 : Nat) : Int) from rfl, Int.shiftLeft_coe_nat,
      Nat.shiftLeft_eq]
  have hklt : k * 2^52 < 2^63 := by
    have := Nat.mul_le_mul_right (2^52) (show k ≤ 2^11 - 1 by omega)
    omega
  unfold fromFloat
  rw [hshift]
  cases hneg : d.neg
  · rw [show (if (false = true) then ((2:Int)^63) else 0) = ((0 : Nat) : Int) from rfl,
      show (if (false = true) then ((2:Nat)^63) else 0) = (0 : Nat) from rfl,
      int_lor_natCast, int_lor_natCast]
    have o1 : (0 : Nat) ||| k * 2^52 = k * 2^52 := Nat.zero_or _
    have o2 : (k * 2^52) ||| d.mant = k * 2^52 + d.mant := by
      have h := Nat.mul_add_lt_is_or hm k
      rw [Nat.mul_comm] at h
      omega
    rw [o1, o2]
    omega
  · rw [show (if (true = true) then ((2:Int)^63) else 0) = ((2:Int)^63) from rfl,
      show (if (true = true) then ((2:Nat)^63) else 0) = ((2:Nat)^63) from rfl,
      show ((2:Int)^63) = ((2^63 : Nat) : Int) by norm_cast, int_lor_natCast,
      int_lor_natCast]
    have o1 : (2^63 : Nat) ||| k * 2^52 = 2^63 + k * 2^52 := by
      have h := Nat.mul_add_lt_is_or hklt 1
      simpa using h.symm
    have o2 : (2^63 + k * 2^52) ||| d.mant = 2^63 + k * 2^52 + d.mant := by
      have h := Nat.mul_add_lt_is_or hm (2^11 + k)
      have he : (2:Nat)^52 * (2^11 + k) = 2^63 + k * 2^52 := by ring
      rw [he] at h
      exact h.symm
    rw [o1, o2]
    omega

lemma fromFloat_toFloat_aux (bits : Nat) (h64 : bits < 2^64)
    (_hfinite : bits / 2^52 % 2^11 ≠ 2047) :
    fromFloat (toFloat bits) = bits := by
  have hk : (toFloat bits).exp + 1023 = ((bits / 2^52 % 2^11 : Nat) : Int) := by
    simp [toFloat]
  have hk2 : bits / 2^52 % 2^11 < 2^11 := Nat.mod_lt _ (by norm_num)
  have hm : (toFloat bits).mant < 2^52 := Nat.mod_lt _ (by norm_num)
  rw [fromFloat_eq _ _ hk hk2 hm]
  show (if (toFloat bits).neg then 2^63 else 0) + bits / 2^52 % 2^11 * 2^52
      + (toFloat bits).mant = bits
  simp only [toFloat, decide_eq_true_eq]
  by_cases hs : bits / 2^63 % 2 = 1
  · rw [if_pos hs]; omega
  · rw [if_neg hs]; omega

/-- C2: for every finite double (any 64-bit pattern whose exponent field is
not all-ones, hence including ±0, negatives and subnormals), recomposing
the decomposition reproduces the pattern bit for bit. -/
theorem fromFloat_toFloat (bits : Nat) (h64 : bits < 2^64)
    (hfinite : bits / 2^52 % 2^11 ≠ 2047) :
    fromFloat (toFloat bits) = bits :=
  fromFloat_toFloat_aux bits h64 hfinite

/-- Witness for C2 at the pattern of `-0.0` (sign bit only). -/
theorem fromFloat_toFloat_witness :
    (2^63 : Nat) < 2^64 ∧ (2^63 : Nat) / 2^52 % 2^11 ≠ 2047 ∧
      fromFloat (toFloat (2^63)) = 2^63 :=
  ⟨by norm_num, by norm_num, fromFloat_toFloat (2^63) (by norm_num) (by norm_num)⟩

/-! ## Zero mantissa dequantizes to signed zero (C8) -/

/-- C8: dequantizing a fixed-point value with zero mantissa yields the
decomposed representation of signed zero — exponent `-1023`, mantissa `0`,
sign preserved — for every sign, shared exponent and mantissa width. -/
theorem fromFixedPoint_zero_mant (neg : Bool) (exp : Int) (mantBits : Nat) :
    fromFixedPoint ⟨neg, exp, 0⟩ mantBits = ⟨neg, -1023, 0⟩ := by
  simp [fromFixedPoint]

/-! ## Base64 round trip (C3) -/

lemma or_pack (a b t : Nat) (hb : b < 2^t) : a * 2^t ||| b = a * 2^t + b := by
  calc a * 2^t ||| b = 2^t * a ||| b := by rw [Nat.mul_comm]
  _ = 2^t * a + b := (Nat.mul_add_lt_is_or hb a).symm
  _ = a * 2^t + b := by ring

lemma and63 (x : Nat) : x &&& 63 = x % 64 := by
  have h := Nat.and_pow_two_sub_one_eq_mod x 6
  norm_num at h
  exact h

lemma and255 (x : Nat) : x &&& 255 = x % 256 := by
  have h := Nat.and_pow_two_sub_one_eq_mod x 8
  norm_num at h
  exact h

/-- In-range alphabet indices survive the encode/decode character maps. -/
lemma b64_roundtrip_char : ∀ k, k < 64 → b64val (b64chr k) = k := by decide

lemma b64val_b64chr_mod (x : Nat) : b64val (b64chr (x % 64)) = x % 64 :=
  b64_roundtrip_char _ (Nat.mod_lt _ (by norm_num))

/-- No character of the URL-safe alphabet (nor the fallback) is `=`. -/
lemma b64chr_ne_eq (k : Nat) : b64chr k ≠ '=' := by
  by_cases h : k < 64
  · exact (by decide : ∀ j, j < 64 → b64chr j ≠ '=') k h
  · unfold b64chr
    rw [List.getD_eq_default]
    · decide
    · have : BASE64_CHARS.length = 64 := by decide
      omega

/-- The encoder never emits a padding character. -/
lemma base64Encode_ne_eq (bytes : List Nat) : ∀ c ∈ base64Encode bytes, c ≠ '=' := by
  match bytes with
  | [] => simp [base64Encode]
  | [b0] => simp [base64Encode, b64chr_ne_eq]
  | [b0, b1] => simp [base64Encode, b64chr_ne_eq]
  | b0 :: b1 :: b2 :: rest =>
    have ih := base64Encode_ne_eq rest
    simp only [base64Encode, List.mem_cons]
    intro c hc
    rcases hc with h | h | h | h | h
    all_goals first
      | (subst h; exact b64chr_ne_eq _)
      | exact ih c h
  termination_by bytes.length

/-- Stripping trailing `=` from an `=`-free string is the identity. -/
lemma stripEq_of_ne (s : List Char) (h : ∀ c ∈ s, c ≠ '=') :
    (s.reverse.dropWhile (· == '=')).reverse = s := by
  rcases hrev : s.reverse with _ | ⟨a, t⟩
  · have hs : s = [] := by
      have := congrArg List.reverse hrev
      simpa using this
    simp [hs]
  · have ha : a ∈ s := by
      have : a ∈ s.reverse := by rw [hrev]; simp
      simpa using this
    have hne : (a == '=') = false := by
      simpa using h a ha
    rw [List.dropWhile_cons, hne]
    simp only [Bool.false_eq_true, if_false]
    rw [← hrev, List.reverse_reverse]

/-- Decoding inverts encoding, chunk by chunk. -/
lemma decodeLoop_encode (bytes : List Nat) (hb : ∀ x ∈ bytes, x < 256) :
    base64DecodeLoop (base64Encode bytes) = bytes := by
  match bytes with
  | [] => rfl
  | [b0] =>
    have hb0 : b0 < 256 := hb b0 (by simp)
    simp only [base64Encode, base64DecodeLoop, Nat.shiftLeft_eq, Nat.shiftRight_eq_div_pow,
      and63, and255, b64val_b64chr_mod]
    rw [or_pack _ _ 18 (by omega)]
    simp only [List.cons.injEq, and_true]
    omega
  | [b0, b1] =>
    have hb0 : b0 < 256 := hb b0 (by simp)
    have hb1 : b1 < 256 := hb b1 (by simp)
    simp only [base64Encode, base64DecodeLoop, Nat.shiftLeft_eq, Nat.shiftRight_eq_div_pow,
      and63, and255]
    rw [or_pack b0 _ 16 (by omega)]
    simp only [b64val_b64chr_mod]
    rw [or_pack _ _ 18 (by omega),
      show ((b0 * 2^16 + b1 * 2^8) / 2^18 % 64) * 2^18 + ((b0 * 2^16 + b1 * 2^8) / 2^12 % 64) * 2^12
        = (((b0 * 2^16 + b1 * 2^8) / 2^18 % 64) * 2^6 + ((b0 * 2^16 + b1 * 2^8) / 2^12 % 64)) * 2^12
        by ring,
      or_pack _ _ 12 (by omega)]
    simp only [List.cons.injEq, and_true]
    omega
  | b0 :: b1 :: b2 :: rest =>
    have hb0 : b0 < 256 := hb b0 (by simp)
    have hb1 : b1 < 256 := hb b1 (by simp)
    have hb2 : b2 < 256 := hb b2 (by simp)
    have ih := decodeLoop_encode rest (fun x hx => hb x (by simp [hx]))
    simp only [base64Encode, base64DecodeLoop, Nat.shiftLeft_eq, Nat.shiftRight_eq_div_pow,
      and63, and255]
    rw [or_pack b0 _ 16 (by omega),
      show b0 * 2^16 + b1 * 2^8 = (b0 * 2^8 + b1) * 2^8 by ring,
      or_pack _ _ 8 (by omega)]
    set n := (b0 * 2^8 + b1) * 2^8 + b2 with hn
    simp only [b64val_b64chr_mod]
    rw [or_pack _ _ 18 (by omega),
      show (n / 2^18 % 64) * 2^18 + (n / 2^12 % 64) * 2^12
        = ((n / 2^18 % 64) * 2^6 + (n / 2^12 % 64)) * 2^12 by ring,
      or_pack _ _ 12 (by omega),
      show ((n / 2^18 % 64) * 2^6 + (n / 2^12 % 64)) * 2^12 + (n / 2^6 % 64) * 2^6
        = (((n / 2^18 % 64) * 2^6 + (n / 2^12 % 64)) * 2^6 + (n / 2^6 % 64)) * 2^6 by ring,
      or_pack _ _ 6 (by omega)]
    rw [ih]
    simp only [List.cons.injEq, and_true]
    refine ⟨by omega, by omega, by omega⟩
  termination_by bytes.length

/-- C3: decoding the encoding of any byte array returns it unchanged, and
no padding character is ever emitted (`base64Decode` itself accepts inputs
of any length, in particular lengths that are not multiples of 4). -/
theorem base64_decode_encode (bytes : List Nat) (hb : ∀ x ∈ bytes, x < 256) :
    base64Decode (base64Encode bytes) = bytes ∧ ∀ c ∈ base64Encode bytes, c ≠ '=' := by
  refine ⟨?_, base64Encode_ne_eq bytes⟩
  unfold base64Decode
  rw [stripEq_of_ne _ (base64Encode_ne_eq bytes)]
  exact decodeLoop_encode bytes hb

/-- Witness for C3 on a 5-byte array (a final partial group of 2 bytes). -/
theorem base64_decode_encode_witness :
    (∀ x ∈ [0, 255, 7, 9, 128], x < 256) ∧
      (base64Decode (base64Encode [0, 255, 7, 9, 128]) = [0, 255, 7, 9, 128] ∧
        ∀ c ∈ base64Encode [0, 255, 7, 9, 128], c ≠ '=') :=
  ⟨by decide, base64_decode_encode [0, 255, 7, 9, 128] (by decide)⟩

/-! ## Fixed-point quantizer round trip at `mantBits = 52` (C1) -/

/-- Quantizing at `mantBits = 52` against the value's own shared exponent
(`exp = ownExp + 1`, as `encodeFixedPoints` computes for a one-element
batch) shifts one bit out of the 52-bit mantissa (`downshiftBy = 1`).  For
an even mantissa no rounding occurs and the result is the marker bit at
position 51 over the top 51 mantissa bits. -/
lemma toFixedPoint_52_self (f : DecomposedFloat) (hm : f.mant < 2^52)
    (heven : f.mant % 2 = 0) :
    toFixedPoint f ⟨52, some (f.exp + 1)⟩ = some ⟨f.neg, f.exp + 1, 2^51 + f.mant / 2⟩ := by
  have h1 : f.exp + 1 - (f.exp + 1) + 53 - ((52:Nat) : Int) = 1 := by push_cast; ring
  have h2 : ((52:Nat) : Int) - 1 - (f.exp + 1 - (f.exp + 1)) = 51 := by push_cast; ring
  have hshl0 : bigShl 1 (1 - 1) = 1 := by decide
  have hshl51 : bigShl 1 (51 : Int) = 2^51 := by decide
  have hround : Nat.land f.mant 1 = 0 := by
    show f.mant &&& 1 = 0
    rw [Nat.and_one_is_mod]
    exact heven
  have hshr : bigShr f.mant 1 = f.mant / 2 := by
    unfold bigShr
    rw [if_pos (by norm_num), show Int.toNat 1 = 1 from rfl, Nat.shiftRight_eq_div_pow,
      pow_one]
  have hor : Nat.lor (f.mant / 2) (2^51) = 2^51 + f.mant / 2 := by
    show (f.mant / 2) ||| 2^51 = 2^51 + f.mant / 2
    rw [Nat.lor_comm, show ((2:Nat)^51) = 1 * 2^51 by ring,
      or_pack 1 (f.mant / 2) 51 (by omega)]
  have hshl0z : bigShl 1 (0 : Int) = 1 := by decide
  have hroundz : Nat.land f.mant (bigShl 1 (0 : Int)) = 0 := by rw [hshl0z]; exact hround
  unfold toFixedPoint
  simp only [Option.getD_some]
  rw [if_neg (lt_irrefl _)]
  simp [h1, h2, hshl0, hshl0z, hroundz, hround, hshl51, hshr, hor, -Nat.reducePow]

/-- Dequantizing a 52-bit fixed-point value with the marker in the top bit
(bit 51) recovers exponent `sharedExp - 1` and doubles the data bits. -/
lemma fromFixedPoint_52_marker (neg : Bool) (e : Int) (d : Nat) (hd : d < 2^51) :
    fromFixedPoint ⟨neg, e, 2^51 + d⟩ 52 = ⟨neg, e - 1, 2 * d⟩ := by
  have hne : (2^51 + d ≠ 0) := by omega
  have hlen : jsBitLen (2^51 + d) = 52 :=
    jsBitLen_eq_of _ 52 (by norm_num) (by norm_num) (by norm_num; omega)
  have h1 : e - (((52:Nat) : Int) - ((52:Nat) : Int)) - 1 = e - 1 := by push_cast; ring
  have h2 : ((52:Nat) : Int) - 1 = (51 : Int) := by norm_num
  have hmask : bigShl 1 (51 : Int) - 1 = 2^51 - 1 := by decide
  have hand : Nat.land (2^51 + d) (2^51 - 1) = d := by
    show (2^51 + d) &&& (2^51 - 1) = d
    rw [Nat.and_pow_two_sub_one_eq_mod]
    omega
  have h3 : e - (e - (((52:Nat) : Int) - ((52:Nat) : Int)) - 1) = (1 : Int) := by
    push_cast; ring
  have hshl1 : bigShl d (1 : Int) = 2 * d := by
    unfold bigShl
    rw [if_pos (by norm_num), show Int.toNat 1 = 1 from rfl, Nat.shiftLeft_eq, pow_one,
      Nat.mul_comm]
  have h3b : e - (e - 1) = (1 : Int) := by ring
  have h4 : ((52:Int)) - ((52:Nat) : Int) = 0 := by norm_num
  have hshl0 : bigShl (2 * d) (0 : Int) = 2 * d := by
    unfold bigShl
    rw [if_pos le_rfl, show Int.toNat 0 = 0 from rfl, Nat.shiftLeft_eq, pow_zero,
      Nat.mul_one]
  unfold fromFixedPoint
  simp [hne, hlen, h1, h2, hmask, hand, h3, h3b, hshl1, h4, hshl0, -Nat.reducePow]

/-- C1 (amended): for every double with `|exponent| < 16` whose mantissa is
even, quantizing at scheme `{expBits 5, mantBits 52}` with the one-element
batch's shared exponent `e+1` and dequantizing returns the double exactly,
bit for bit.  (The even-mantissa restriction is forced: `downshiftBy = 1`
at `mantBits = 52`, so the lowest mantissa bit is rounded away, see
`fixedPoint52_not_exact`.) -/
theorem fixedPoint52_roundtrip_even (bits : Nat) (h64 : bits < 2^64)
    (hlo : -16 < (toFloat bits).exp) (hhi : (toFloat bits).exp < 16)
    (heven : bits % 2 = 0) :
    (toFixedPoint (toFloat bits) ⟨52, some ((toFloat bits).exp + 1)⟩).map
      (fun fp => fromFloat (fromFixedPoint fp 52)) = some bits := by
  have hm : (toFloat bits).mant < 2^52 := Nat.mod_lt _ (by norm_num)
  have hmeven : (toFloat bits).mant % 2 = 0 := by
    show bits % 2^52 % 2 = 0
    rw [Nat.mod_mod_of_dvd _ (by norm_num)]
    exact heven
  rw [toFixedPoint_52_self _ hm hmeven]
  rw [Option.map_some']
  rw [fromFixedPoint_52_marker _ _ _ (by omega : (toFloat bits).mant / 2 < 2^51)]
  have h1 : (toFloat bits).exp + 1 - 1 = (toFloat bits).exp := by ring
  have h2 : 2 * ((toFloat bits).mant / 2) = (toFloat bits).mant := by omega
  rw [h1, h2]
  rw [show (⟨(toFloat bits).neg, (toFloat bits).exp, (toFloat bits).mant⟩ : DecomposedFloat)
      = toFloat bits from rfl]
  have hE : (toFloat bits).exp = ((bits / 2^52 % 2^11 : Nat) : Int) - 1023 := rfl
  have hfin : bits / 2^52 % 2^11 ≠ 2047 := by
    rw [hE] at hhi
    omega
  exact congrArg some (fromFloat_toFloat_aux bits h64 hfin)

/-- Witness for C1 at the pattern of `1.5` (exponent 0, mantissa `2^51`). -/
theorem fixedPoint52_roundtrip_even_witness :
    (1023 * 2^52 + 2^51 : Nat) < 2^64 ∧
      (-16 < (toFloat (1023 * 2^52 + 2^51)).exp ∧ (toFloat (1023 * 2^52 + 2^51)).exp < 16 ∧
        (1023 * 2^52 + 2^51) % 2 = 0) ∧
      (toFixedPoint (toFloat (1023 * 2^52 + 2^51))
          ⟨52, some ((toFloat (1023 * 2^52 + 2^51)).exp + 1)⟩).map
        (fun fp => fromFloat (fromFixedPoint fp 52)) = some (1023 * 2^52 + 2^51) :=
  ⟨by norm_num, ⟨by decide, by decide, by decide⟩,
    fixedPoint52_roundtrip_even _ (by norm_num) (by decide) (by decide) (by decide)⟩

/-- Counterexample to C1 as stated: the double `1 + 2^-52` (pattern
`1023 * 2^52 + 1`, exponent 0, odd mantissa) does not survive the
quantize/dequantize round trip at `{expBits 5, mantBits 52}`: the dropped
low mantissa bit is rounded up, yielding mantissa 2 instead of 1. -/
theorem fixedPoint52_not_exact :
    ((1023 * 2^52 + 1 : Nat) < 2^64 ∧
      -16 < (toFloat (1023 * 2^52 + 1)).exp ∧ (toFloat (1023 * 2^52 + 1)).exp < 16) ∧
    (toFixedPoint (toFloat (1023 * 2^52 + 1)) ⟨52, some ((toFloat (1023 * 2^52 + 1)).exp + 1)⟩).map
        (fun fp => fromFloat (fromFixedPoint fp 52)) = some (1023 * 2^52 + 2) ∧
    ¬ (toFixedPoint (toFloat (1023 * 2^52 + 1)) ⟨52, some ((toFloat (1023 * 2^52 + 1)).exp + 1)⟩).map
        (fun fp => fromFloat (fromFixedPoint fp 52)) = some (1023 * 2^52 + 1) := by
  refine ⟨⟨by norm_num, by decide, by decide⟩, by decide, by decide⟩

/-! ## BitBuffer cursor accounting -/

namespace BitBuffer

lemma encodeIntLoop_advance (buf : List Int) (B bo : Nat) (n : Int) (k : Nat) :
    bo < 8 →
      (encodeIntLoop buf B bo n k).2.1 * 8 + (encodeIntLoop buf B bo n k).2.2 = B * 8 + bo + k
        ∧ (encodeIntLoop buf B bo n k).2.2 < 8 := by
  induction buf, B, bo, n, k using encodeIntLoop.induct with
  | case1 buf B bo n k h =>
    intro hbo
    rw [encodeIntLoop, if_pos h]
    have hk : k = 0 := by omega
    refine ⟨?_, ?_⟩
    · show B * 8 + bo = B * 8 + bo + k
      omega
    · show bo < 8
      exact hbo
  | case2 buf B bo n k h buf1 rem w blib bltw mask sbtw buf2 n' hroll ih =>
    intro hbo
    rw [encodeIntLoop, if_neg h]
    unfold_let buf1 rem w blib bltw mask sbtw buf2 n' at hroll ih
    first
    | simp only [dite_eq_ite] at ih
    | skip
    rw [if_pos hroll]
    obtain ⟨ha, hb⟩ := ih (by norm_num)
    exact ⟨by omega, hb⟩
  | case3 buf B bo n k h buf1 rem w blib bltw mask sbtw buf2 n' hroll ih =>
    intro hbo
    rw [encodeIntLoop, if_neg h]
    unfold_let buf1 rem w blib bltw mask sbtw buf2 n' at hroll ih
    first
    | simp only [dite_eq_ite] at ih
    | skip
    rw [if_neg hroll]
    obtain ⟨ha, hb⟩ := ih (by omega)
    exact ⟨by omega, hb⟩

lemma decodeIntLoop_advance (buf : List Int) (B bo : Nat) (n : Int) (k : Nat) :
    bo < 8 →
      (decodeIntLoop buf B bo n k).1 * 8 + (decodeIntLoop buf B bo n k).2.1 = B * 8 + bo + k
        ∧ (decodeIntLoop buf B bo n k).2.1 < 8 := by
  induction B, bo, n, k using decodeIntLoop.induct buf with
  | case1 B bo n k h =>
    intro hbo
    rw [decodeIntLoop, if_pos h]
    have hk : k = 0 := by omega
    refine ⟨?_, ?_⟩
    · show B * 8 + bo = B * 8 + bo + k
      omega
    · show bo < 8
      exact hbo
  | case2 B bo n k h rem w blib mask bits n' hroll ih =>
    intro hbo
    rw [decodeIntLoop, if_neg h]
    unfold_let rem w blib mask bits n' at hroll ih
    rw [if_pos hroll]
    obtain ⟨ha, hb⟩ := ih (by norm_num)
    exact ⟨by omega, hb⟩
  | case3 B bo n k h rem w blib mask bits n' hroll ih =>
    intro hbo
    rw [decodeIntLoop, if_neg h]
    unfold_let rem w blib mask bits n' at hroll ih
    rw [if_neg hroll]
    obtain ⟨ha, hb⟩ := ih (by omega)
    exact ⟨by omega, hb⟩

lemma encodeBigIntLoop_advance (buf : List Int) (B bo : Nat) (n : Nat) (k : Nat) :
    bo < 8 →
      (encodeBigIntLoop buf B bo n k).2.1 * 8 + (encodeBigIntLoop buf B bo n k).2.2 = B * 8 + bo + k
        ∧ (encodeBigIntLoop buf B bo n k).2.2 < 8 := by
  induction buf, B, bo, n, k using encodeBigIntLoop.induct with
  | case1 buf B bo n k h =>
    intro hbo
    rw [encodeBigIntLoop, if_pos h]
    have hk : k = 0 := by omega
    refine ⟨?_, ?_⟩
    · show B * 8 + bo = B * 8 + bo + k
      omega
    · show bo < 8
      exact hbo
  | case2 buf B bo n k h buf1 rem w blib bltw mask sbtw buf2 n' hroll ih =>
    intro hbo
    rw [encodeBigIntLoop, if_neg h]
    unfold_let buf1 rem w blib bltw mask sbtw buf2 n' at hroll ih
    first
    | simp only [dite_eq_ite] at ih
    | skip
    rw [if_pos hroll]
    obtain ⟨ha, hb⟩ := ih (by norm_num)
    exact ⟨by omega, hb⟩
  | case3 buf B bo n k h buf1 rem w blib bltw mask sbtw buf2 n' hroll ih =>
    intro hbo
    rw [encodeBigIntLoop, if_neg h]
    unfold_let buf1 rem w blib bltw mask sbtw buf2 n' at hroll ih
    first
    | simp only [dite_eq_ite] at ih
    | skip
    rw [if_neg hroll]
    obtain ⟨ha, hb⟩ := ih (by omega)
    exact ⟨by omega, hb⟩

lemma decodeBigIntLoop_advance (buf : List Int) (B bo : Nat) (n : Nat) (k : Nat) :
    bo < 8 →
      (decodeBigIntLoop buf B bo n k).1 * 8 + (decodeBigIntLoop buf B bo n k).2.1 = B * 8 + bo + k
        ∧ (decodeBigIntLoop buf B bo n k).2.1 < 8 := by
  induction B, bo, n, k using decodeBigIntLoop.induct buf with
  | case1 B bo n k h =>
    intro hbo
    rw [decodeBigIntLoop, if_pos h]
    have hk : k = 0 := by omega
    refine ⟨?_, ?_⟩
    · show B * 8 + bo = B * 8 + bo + k
      omega
    · show bo < 8
      exact hbo
  | case2 B bo n k h rem w blib mask bits n' hroll ih =>
    intro hbo
    rw [decodeBigIntLoop, if_neg h]
    unfold_let rem w blib mask bits n' at hroll ih
    rw [if_pos hroll]
    obtain ⟨ha, hb⟩ := ih (by norm_num)
    exact ⟨by omega, hb⟩
  | case3 B bo n k h rem w blib mask bits n' hroll ih =>
    intro hbo
    rw [decodeBigIntLoop, if_neg h]
    unfold_let rem w blib mask bits n' at hroll ih
    rw [if_neg hroll]
    obtain ⟨ha, hb⟩ := ih (by omega)
    exact ⟨by omega, hb⟩

lemma jsArraySet_length_of_lt (l : List Int) (i : Nat) (h : i < l.length) (v : Int) :
    (jsArraySet l i v).length = l.length := by
  unfold jsArraySet
  rw [if_pos h]
  exact List.length_set l i v

lemma encodeIntLoop_wf (buf : List Int) (B bo : Nat) (n : Int) (k : Nat) :
    bo < 8 → B ≤ buf.length → (bo ≠ 0 → B < buf.length) →
      (encodeIntLoop buf B bo n k).2.1 ≤ (encodeIntLoop buf B bo n k).1.length
        ∧ ((encodeIntLoop buf B bo n k).2.2 ≠ 0 →
            (encodeIntLoop buf B bo n k).2.1 < (encodeIntLoop buf B bo n k).1.length)
        ∧ buf.length ≤ (encodeIntLoop buf B bo n k).1.length := by
  induction buf, B, bo, n, k using encodeIntLoop.induct with
  | case1 buf B bo n k h =>
    intro hbo hB hmid
    rw [encodeIntLoop, if_pos h]
    exact ⟨hB, hmid, le_refl _⟩
  | case2 buf B bo n k h buf1 rem w blib bltw mask sbtw buf2 n' hroll ih =>
    intro hbo hB hmid
    rw [encodeIntLoop, if_neg h]
    unfold_let buf1 rem w blib bltw mask sbtw buf2 n' at hroll ih
    first
    | simp only [dite_eq_ite] at ih
    | skip
    rw [if_pos hroll]
    have hg1 : B < (if buf.length ≤ B then buf ++ [0] else buf).length := by
      split <;> first
      | omega
      | (simp; try omega)
    have hg2 : buf.length ≤ (if buf.length ≤ B then buf ++ [0] else buf).length := by
      split <;> first
      | omega
      | (simp; try omega)
    obtain ⟨ha, hb, hc⟩ := ih (by norm_num) (by rw [jsArraySet_length_of_lt _ _ hg1]; omega)
      (by intro hcon; exact absurd rfl hcon)
    refine ⟨ha, hb, ?_⟩
    rw [jsArraySet_length_of_lt _ _ hg1] at hc
    omega
  | case3 buf B bo n k h buf1 rem w blib bltw mask sbtw buf2 n' hroll ih =>
    intro hbo hB hmid
    rw [encodeIntLoop, if_neg h]
    unfold_let buf1 rem w blib bltw mask sbtw buf2 n' at hroll ih
    first
    | simp only [dite_eq_ite] at ih
    | skip
    rw [if_neg hroll]
    have hg1 : B < (if buf.length ≤ B then buf ++ [0] else buf).length := by
      split <;> first
      | omega
      | (simp; try omega)
    have hg2 : buf.length ≤ (if buf.length ≤ B then buf ++ [0] else buf).length := by
      split <;> first
      | omega
      | (simp; try omega)
    obtain ⟨ha, hb, hc⟩ := ih (by omega) (by rw [jsArraySet_length_of_lt _ _ hg1]; omega)
      (by intro hcon; rw [jsArraySet_length_of_lt _ _ hg1]; omega)
    refine ⟨ha, hb, ?_⟩
    rw [jsArraySet_length_of_lt _ _ hg1] at hc
    omega

lemma encodeBigIntLoop_wf (buf : List Int) (B bo : Nat) (n : Nat) (k : Nat) :
    bo < 8 → B ≤ buf.length → (bo ≠ 0 → B < buf.length) →
      (encodeBigIntLoop buf B bo n k).2.1 ≤ (encodeBigIntLoop buf B bo n k).1.length
        ∧ ((encodeBigIntLoop buf B bo n k).2.2 ≠ 0 →
            (encodeBigIntLoop buf B bo n k).2.1 < (encodeBigIntLoop buf B bo n k).1.length)
        ∧ buf.length ≤ (encodeBigIntLoop buf B bo n k).1.length := by
  induction buf, B, bo, n, k using encodeBigIntLoop.induct with
  | case1 buf B bo n k h =>
    intro hbo hB hmid
    rw [encodeBigIntLoop, if_pos h]
    exact ⟨hB, hmid, le_refl _⟩
  | case2 buf B bo n k h buf1 rem w blib bltw mask sbtw buf2 n' hroll ih =>
    intro hbo hB hmid
    rw [encodeBigIntLoop, if_neg h]
    unfold_let buf1 rem w blib bltw mask sbtw buf2 n' at hroll ih
    first
    | simp only [dite_eq_ite] at ih
    | skip
    rw [if_pos hroll]
    have hg1 : B < (if buf.length ≤ B then buf ++ [0] else buf).length := by
      split <;> first
      | omega
      | (simp; try omega)
    have hg2 : buf.length ≤ (if buf.length ≤ B then buf ++ [0] else buf).length := by
      split <;> first
      | omega
      | (simp; try omega)
    obtain ⟨ha, hb, hc⟩ := ih (by norm_num) (by rw [jsArraySet_length_of_lt _ _ hg1]; omega)
      (by intro hcon; exact absurd rfl hcon)
    refine ⟨ha, hb, ?_⟩
    rw [jsArraySet_length_of_lt _ _ hg1] at hc
    omega
  | case3 buf B bo n k h buf1 rem w blib bltw mask sbtw buf2 n' hroll ih =>
    intro hbo hB hmid
    rw [encodeBigIntLoop, if_neg h]
    unfold_let buf1 rem w blib bltw mask sbtw buf2 n' at hroll ih
    first
    | simp only [dite_eq_ite] at ih
    | skip
    rw [if_neg hroll]
    have hg1 : B < (if buf.length ≤ B then buf ++ [0] else buf).length := by
      split <;> first
      | omega
      | (simp; try omega)
    have hg2 : buf.length ≤ (if buf.length ≤ B then buf ++ [0] else buf).length := by
      split <;> first
      | omega
      | (simp; try omega)
    obtain ⟨ha, hb, hc⟩ := ih (by omega) (by rw [jsArraySet_length_of_lt _ _ hg1]; omega)
      (by intro hcon; rw [jsArraySet_length_of_lt _ _ hg1]; omega)
    refine ⟨ha, hb, ?_⟩
    rw [jsArraySet_length_of_lt _ _ hg1] at hc
    omega

end BitBuffer

/-- The class invariant of `BitBuffer`: the bit cursor is inside a byte and
the byte cursor is inside the storage (just past it only at a byte
boundary). -/
def BitBufferWF (b : BitBuffer) : Prop :=
  b.bitOffset < 8 ∧ b.byteOffset ≤ b.buf.length ∧
    (b.bitOffset ≠ 0 → b.byteOffset < b.buf.length)

lemma encodeInt_spec (b : BitBuffer) (n : Int) (k : Nat) (h : BitBufferWF b) :
    BitBufferWF (b.encodeInt n k)
      ∧ (b.encodeInt n k).totalBitOffset = b.totalBitOffset + k
      ∧ (b.encodeInt n k).«end» = max b.«end» (b.totalBitOffset + k)
      ∧ b.buf.length ≤ (b.encodeInt n k).buf.length := by
  obtain ⟨h1, h2, h3⟩ := h
  obtain ⟨ha, hb⟩ := BitBuffer.encodeIntLoop_advance b.buf b.byteOffset b.bitOffset n k h1
  obtain ⟨hc, hd, he⟩ := BitBuffer.encodeIntLoop_wf b.buf b.byteOffset b.bitOffset n k h1 h2 h3
  set r := BitBuffer.encodeIntLoop b.buf b.byteOffset b.bitOffset n k with hr
  simp only [BitBuffer.encodeInt, BitBuffer.totalBitOffset, BitBufferWF]
  rw [← hr]
  split
  · rename_i hcond
    have hcond2 : b.«end» < r.2.1 * 8 + r.2.2 := hcond
    refine ⟨⟨hb, hc, hd⟩, ?_, ?_, he⟩
    · show r.2.1 * 8 + r.2.2 = b.byteOffset * 8 + b.bitOffset + k
      omega
    · show r.2.1 * 8 + r.2.2 = max b.«end» (b.byteOffset * 8 + b.bitOffset + k)
      omega
  · rename_i hcond
    have hcond2 : ¬ (b.«end» < r.2.1 * 8 + r.2.2) := hcond
    refine ⟨⟨hb, hc, hd⟩, ?_, ?_, he⟩
    · show r.2.1 * 8 + r.2.2 = b.byteOffset * 8 + b.bitOffset + k
      omega
    · show b.«end» = max b.«end» (b.byteOffset * 8 + b.bitOffset + k)
      omega

lemma encodeBigInt_spec (b : BitBuffer) (n : Nat) (k : Nat) (h : BitBufferWF b) :
    BitBufferWF (b.encodeBigInt n k)
      ∧ (b.encodeBigInt n k).totalBitOffset = b.totalBitOffset + k
      ∧ (b.encodeBigInt n k).«end» = max b.«end» (b.totalBitOffset + k)
      ∧ b.buf.length ≤ (b.encodeBigInt n k).buf.length := by
  obtain ⟨h1, h2, h3⟩ := h
  obtain ⟨ha, hb⟩ := BitBuffer.encodeBigIntLoop_advance b.buf b.byteOffset b.bitOffset n k h1
  obtain ⟨hc, hd, he⟩ := BitBuffer.encodeBigIntLoop_wf b.buf b.byteOffset b.bitOffset n k h1 h2 h3
  set r := BitBuffer.encodeBigIntLoop b.buf b.byteOffset b.bitOffset n k with hr
  simp only [BitBuffer.encodeBigInt, BitBuffer.totalBitOffset, BitBufferWF]
  rw [← hr]
  split
  · rename_i hcond
    have hcond2 : b.«end» < r.2.1 * 8 + r.2.2 := hcond
    refine ⟨⟨hb, hc, hd⟩, ?_, ?_, he⟩
    · show r.2.1 * 8 + r.2.2 = b.byteOffset * 8 + b.bitOffset + k
      omega
    · show r.2.1 * 8 + r.2.2 = max b.«end» (b.byteOffset * 8 + b.bitOffset + k)
      omega
  · rename_i hcond
    have hcond2 : ¬ (b.«end» < r.2.1 * 8 + r.2.2) := hcond
    refine ⟨⟨hb, hc, hd⟩, ?_, ?_, he⟩
    · show r.2.1 * 8 + r.2.2 = b.byteOffset * 8 + b.bitOffset + k
      omega
    · show b.«end» = max b.«end» (b.byteOffset * 8 + b.bitOffset + k)
      omega

lemma decodeInt_spec (b : BitBuffer) (k : Nat) (h1 : b.bitOffset < 8) :
    (b.decodeInt k).1.totalBitOffset = b.totalBitOffset + k
      ∧ (b.decodeInt k).1.buf = b.buf ∧ (b.decodeInt k).1.«end» = b.«end»
      ∧ (b.decodeInt k).1.bitOffset < 8 := by
  obtain ⟨ha, hb⟩ := BitBuffer.decodeIntLoop_advance b.buf b.byteOffset b.bitOffset 0 k h1
  refine ⟨?_, rfl, rfl, hb⟩
  show (BitBuffer.decodeIntLoop b.buf b.byteOffset b.bitOffset 0 k).1 * 8
      + (BitBuffer.decodeIntLoop b.buf b.byteOffset b.bitOffset 0 k).2.1
    = b.byteOffset * 8 + b.bitOffset + k
  omega

lemma decodeBigInt_spec (b : BitBuffer) (k : Nat) (h1 : b.bitOffset < 8) :
    (b.decodeBigInt k).1.totalBitOffset = b.totalBitOffset + k
      ∧ (b.decodeBigInt k).1.buf = b.buf ∧ (b.decodeBigInt k).1.«end» = b.«end»
      ∧ (b.decodeBigInt k).1.bitOffset < 8 := by
  obtain ⟨ha, hb⟩ := BitBuffer.decodeBigIntLoop_advance b.buf b.byteOffset b.bitOffset 0 k h1
  refine ⟨?_, rfl, rfl, hb⟩
  show (BitBuffer.decodeBigIntLoop b.buf b.byteOffset b.bitOffset 0 k).1 * 8
      + (BitBuffer.decodeBigIntLoop b.buf b.byteOffset b.bitOffset 0 k).2.1
    = b.byteOffset * 8 + b.bitOffset + k
  omega

/-! ## Buffer operations advance the cursor (C10) -/

/-- C10: `encodeInt`, `decodeInt`, `encodeBigInt` and `decodeBigInt` each
advance the buffer's total bit offset (`byteOffset*8 + bitOffset`) by
exactly `numBits`, and the two encodes set the high-water mark `end` to the
maximum of its previous value and the cursor after the write — in
particular they never decrease it. -/
lemma wf_new (n : Nat) : BitBufferWF (BitBuffer.new n) :=
  ⟨by simp [BitBuffer.new], by simp [BitBuffer.new], fun h => absurd rfl h⟩

theorem bitOps_advance (b : BitBuffer) (n : Int) (m : Nat) (k : Nat) (h : BitBufferWF b) :
    (b.encodeInt n k).totalBitOffset = b.totalBitOffset + k
      ∧ ((b.decodeInt k).1).totalBitOffset = b.totalBitOffset + k
      ∧ (b.encodeBigInt m k).totalBitOffset = b.totalBitOffset + k
      ∧ ((b.decodeBigInt k).1).totalBitOffset = b.totalBitOffset + k
      ∧ (b.encodeInt n k).«end» = max b.«end» (b.totalBitOffset + k)
      ∧ (b.encodeBigInt m k).«end» = max b.«end» (b.totalBitOffset + k)
      ∧ b.«end» ≤ (b.encodeInt n k).«end» ∧ b.«end» ≤ (b.encodeBigInt m k).«end» := by
  obtain ⟨e1, e2, e3, _⟩ := encodeInt_spec b n k h
  obtain ⟨f1, f2, f3, _⟩ := encodeBigInt_spec b m k h
  obtain ⟨d1, _, _, _⟩ := decodeInt_spec b k h.1
  obtain ⟨g1, _, _, _⟩ := decodeBigInt_spec b k h.1
  exact ⟨e2, d1, f2, g1, e3, f3, by omega, by omega⟩

/-- Witness for C10 on a fresh 2-byte buffer, 12-bit fields. -/
theorem bitOps_advance_witness :
    BitBufferWF (BitBuffer.new 2)
      ∧ (((BitBuffer.new 2).encodeInt 5 12).totalBitOffset
            = (BitBuffer.new 2).totalBitOffset + 12
        ∧ (((BitBuffer.new 2).decodeInt 12).1).totalBitOffset
            = (BitBuffer.new 2).totalBitOffset + 12
        ∧ ((BitBuffer.new 2).encodeBigInt 7 12).totalBitOffset
            = (BitBuffer.new 2).totalBitOffset + 12
        ∧ (((BitBuffer.new 2).decodeBigInt 12).1).totalBitOffset
            = (BitBuffer.new 2).totalBitOffset + 12
        ∧ ((BitBuffer.new 2).encodeInt 5 12).«end»
            = max (BitBuffer.new 2).«end» ((BitBuffer.new 2).totalBitOffset + 12)
        ∧ ((BitBuffer.new 2).encodeBigInt 7 12).«end»
            = max (BitBuffer.new 2).«end» ((BitBuffer.new 2).totalBitOffset + 12)
        ∧ (BitBuffer.new 2).«end» ≤ ((BitBuffer.new 2).encodeInt 5 12).«end»
        ∧ (BitBuffer.new 2).«end» ≤ ((BitBuffer.new 2).encodeBigInt 7 12).«end») :=
  ⟨wf_new 2, bitOps_advance (BitBuffer.new 2) 5 7 12 (wf_new 2)⟩

/-! ## Range failure before any write (C4) -/

lemma toInt32_lt (n : Int) : toInt32 n < 2^31 := by
  simp only [toInt32, toUint32]
  split <;> omega

/-- The claim-level threshold `2^(expBits-1)` dominates the code-level
threshold `1 << expBits - 1` for every `expBits` (they agree on
`1 ≤ expBits ≤ 31`; the Int32 shift is smaller for degenerate widths). -/
lemma claim_threshold_ge (eb : Nat) :
    jsShl 1 ((eb : Int) - 1) ≤ ((2^(eb - 1) : Nat) : Int) := by
  rcases Nat.eq_zero_or_pos eb with h0 | hpos
  · subst h0
    decide
  · by_cases h31 : eb ≤ 31
    · have hcast : ((eb : Int) - 1) = ((eb - 1 : Nat) : Int) := by omega
      rw [hcast, jsShl_one (eb - 1) (by omega)]
    · have hlt : jsShl 1 ((eb : Int) - 1) < 2^31 := toInt32_lt _
      have hle : (2:Nat)^31 ≤ 2^(eb - 1) := Nat.pow_le_pow_right (by norm_num) (by omega)
      have : ((2:Int)^31) ≤ ((2^(eb - 1) : Nat) : Int) := by exact_mod_cast hle
      omega

/-- C4: whenever a batch's shared exponent `max(ownExponent+1)` reaches
`2^(expBits-1)`, `encodeFixedPoints` on a fresh buffer throws its
RangeError before writing anything: the carried buffer state is the
untouched fresh buffer, whose high-water mark is `0` and whose `toBytes`
is empty. -/
theorem encodeFixedPoints_range_error (vals : List Nat) (scheme : PrecisionScheme) (m : Int)
    (hmax : batchMaxExp (vals.map toFloat) = some m)
    (hge : ((2^(scheme.expBits - 1) : Nat) : Int) ≤ m) :
    (BitBuffer.new 0).encodeFixedPoints vals scheme = .rangeError (BitBuffer.new 0)
      ∧ (BitBuffer.new 0).«end» = 0 ∧ (BitBuffer.new 0).toBytes = [] := by
  refine ⟨?_, rfl, rfl⟩
  simp only [BitBuffer.encodeFixedPoints, hmax]
  rw [if_pos (le_trans (claim_threshold_ge scheme.expBits) hge)]

/-- Witness for C4: encoding the double `2^20` with `expBits = 5`. -/
theorem encodeFixedPoints_range_error_witness :
    batchMaxExp ([(1043 * 2^52 : Nat)].map toFloat) = some 21
      ∧ ((2^(5 - 1 : Nat) : Nat) : Int) ≤ 21
      ∧ ((BitBuffer.new 0).encodeFixedPoints [1043 * 2^52] ⟨5, 16⟩
            = .rangeError (BitBuffer.new 0)
        ∧ (BitBuffer.new 0).«end» = 0 ∧ (BitBuffer.new 0).toBytes = []) :=
  ⟨by decide, by decide,
    encodeFixedPoints_range_error [1043 * 2^52] ⟨5, 16⟩ 21 (by decide) (by decide)⟩

/-! ## The quantizer's error branch is unreachable mid-batch (C9) -/

lemma foldl_jsMaxStep_bound : ∀ (es : List Int) (acc : Option Int) (m : Int),
    es.foldl jsMaxStep acc = some m → (∀ e ∈ es, e ≤ m) ∧ (∀ a, acc = some a → a ≤ m) := by
  intro es
  induction es with
  | nil =>
    intro acc m h
    simp only [List.foldl_nil] at h
    exact ⟨by simp, fun a ha => by rw [ha] at h; exact le_of_eq (Option.some.inj h)⟩
  | cons e t ih =>
    intro acc m h
    simp only [List.foldl_cons] at h
    obtain ⟨h1, h2⟩ := ih (jsMaxStep acc e) m h
    rcases acc with _ | a
    · have hvm := h2 e rfl
      refine ⟨?_, ?_⟩
      · intro x hx
        rcases List.mem_cons.mp hx with hx | hx
        · subst hx
          exact hvm
        · exact h1 x hx
      · intro a ha
        cases ha
    · have hvm := h2 (max a e) rfl
      refine ⟨?_, ?_⟩
      · intro x hx
        rcases List.mem_cons.mp hx with hx | hx
        · subst hx
          exact le_trans (le_max_right a x) hvm
        · exact h1 x hx
      · intro a0 ha0
        have heq : a = a0 := Option.some.inj ha0
        subst heq
        exact le_trans (le_max_left a e) hvm

lemma batchMaxExp_ge (l : List DecomposedFloat) (m : Int) (h : batchMaxExp l = some m) :
    ∀ f ∈ l, f.exp + 1 ≤ m := by
  intro f hf
  have h2 : (l.map (fun f => f.exp + 1)).foldl jsMaxStep none = some m := h
  have := (foldl_jsMaxStep_bound (l.map (fun f => f.exp + 1)) none m h2).1
  exact this (f.exp + 1) (List.mem_map_of_mem _ hf)

lemma toFixedPoint_some_of_le (f : DecomposedFloat) (mb : Nat) (m : Int)
    (hle : f.exp + 1 ≤ m) : (toFixedPoint f ⟨mb, some m⟩).isSome := by
  unfold toFixedPoint
  simp only [Option.getD_some]
  rw [if_neg (by exact not_lt.mpr hle)]
  rfl

lemma mapToFixedPoints_some (opts : FixedPointOpts) :
    ∀ l : List DecomposedFloat, (∀ f ∈ l, (toFixedPoint f opts).isSome) →
      ∃ fps, mapToFixedPoints opts l = some fps := by
  intro l
  induction l with
  | nil => exact fun _ => ⟨[], rfl⟩
  | cons f t ih =>
    intro h
    obtain ⟨fp, hfp⟩ := Option.isSome_iff_exists.mp (h f (by simp))
    obtain ⟨fps, hfps⟩ := ih (fun g hg => h g (by simp [hg]))
    refine ⟨fp :: fps, ?_⟩
    unfold mapToFixedPoints
    rw [hfp, hfps]
    rfl

/-- C9: if the initial `expBits` range check of `encodeFixedPoints` passes,
then the error branch inside `toFixedPoint` cannot fire for any element of
the batch (the shared exponent is the batch maximum of `ownExponent + 1`),
so the whole encode completes without raising. -/
theorem encodeFixedPoints_ok_of_check (b : BitBuffer) (vals : List Nat)
    (scheme : PrecisionScheme)
    (hpass : ∀ m, batchMaxExp (vals.map toFloat) = some m →
      m < jsShl 1 ((scheme.expBits : Int) - 1)) :
    (∀ m, batchMaxExp (vals.map toFloat) = some m →
        ∀ f ∈ vals.map toFloat, (toFixedPoint f ⟨scheme.mantBits, some m⟩).isSome)
      ∧ ∃ b', b.encodeFixedPoints vals scheme = .ok b' := by
  have hsome : ∀ m, batchMaxExp (vals.map toFloat) = some m →
      ∀ f ∈ vals.map toFloat, (toFixedPoint f ⟨scheme.mantBits, some m⟩).isSome :=
    fun m hm f hf => toFixedPoint_some_of_le f scheme.mantBits m
      (batchMaxExp_ge (vals.map toFloat) m hm f hf)
  refine ⟨hsome, ?_⟩
  rcases hmax : batchMaxExp (vals.map toFloat) with _ | m
  · exact ⟨b.encodeInt (jsAnd 0 (jsShl 1 (scheme.expBits : Int) - 1)) scheme.expBits,
      by simp only [BitBuffer.encodeFixedPoints, hmax]⟩
  · obtain ⟨fps, hfps⟩ := mapToFixedPoints_some ⟨scheme.mantBits, some m⟩ (vals.map toFloat)
      (hsome m hmax)
    refine ⟨fps.foldl (fun bb fp =>
      (bb.encodeInt (if fp.neg then 1 else 0) 1).encodeBigInt fp.mant scheme.mantBits)
      (b.encodeInt (jsAnd (m + jsShl 1 ((scheme.expBits : Int) - 1))
        (jsShl 1 (scheme.expBits : Int) - 1)) scheme.expBits), ?_⟩
    simp only [BitBuffer.encodeFixedPoints, hmax, hfps]
    rw [if_neg (not_le.mpr (hpass m hmax))]

/-- Witness for C9: the one-element batch `[1.0]` with scheme `5+16`. -/
theorem encodeFixedPoints_ok_of_check_witness :
    (∀ m, batchMaxExp ([(1023 * 2^52 : Nat)].map toFloat) = some m →
        m < jsShl 1 ((5 : Int) - 1))
      ∧ ((∀ m, batchMaxExp ([(1023 * 2^52 : Nat)].map toFloat) = some m →
          ∀ f ∈ [(1023 * 2^52 : Nat)].map toFloat,
            (toFixedPoint f ⟨16, some m⟩).isSome)
        ∧ ∃ b', (BitBuffer.new 0).encodeFixedPoints [1023 * 2^52] ⟨5, 16⟩ = .ok b') := by
  have hpass : ∀ m, batchMaxExp ([(1023 * 2^52 : Nat)].map toFloat) = some m →
      m < jsShl 1 ((5 : Int) - 1) := by
    intro m hm
    have h1 : batchMaxExp ([(1023 * 2^52 : Nat)].map toFloat) = some 1 := by decide
    rw [h1] at hm
    have : m = 1 := (Option.some.inj hm).symm
    subst this
    decide
  exact ⟨hpass, encodeFixedPoints_ok_of_check (BitBuffer.new 0) [1023 * 2^52] ⟨5, 16⟩ hpass⟩

/-! ## The fuel clones agree with the loops -/

lemma encodeIntFuel_eq : ∀ (fuel : Nat) (buf : List Int) (B bo : Nat) (n : Int) (k : Nat),
    k ≤ fuel → BitBuffer.encodeIntFuel fuel buf B bo n k = BitBuffer.encodeIntLoop buf B bo n k := by
  intro fuel
  induction fuel with
  | zero =>
    intro buf B bo n k hk
    have hz : k = 0 := Nat.le_zero.mp hk
    subst hz
    rw [BitBuffer.encodeIntLoop.eq_def]
    simp [BitBuffer.encodeIntFuel]
  | succ f ih =>
    intro buf B bo n k hk
    by_cases h : k = 0 ∨ 8 ≤ bo
    · rw [BitBuffer.encodeIntLoop.eq_def]
      simp only [BitBuffer.encodeIntFuel, if_pos h]
    · rw [BitBuffer.encodeIntLoop.eq_def]
      simp only [BitBuffer.encodeIntFuel, if_neg h]
      by_cases h2 : bo + min k (8 - bo) = 8
      · rw [if_pos h2, if_pos h2]
        exact ih _ _ _ _ _ (by omega)
      · rw [if_neg h2, if_neg h2]
        exact ih _ _ _ _ _ (by omega)

lemma encodeIntLoop_eq_fuel (buf : List Int) (B bo : Nat) (n : Int) (k : Nat) :
    BitBuffer.encodeIntLoop buf B bo n k = BitBuffer.encodeIntFuel k buf B bo n k :=
  (encodeIntFuel_eq k buf B bo n k (le_refl k)).symm

lemma decodeIntFuel_eq : ∀ (fuel : Nat) (buf : List Int) (B bo : Nat) (n : Int) (k : Nat),
    k ≤ fuel → BitBuffer.decodeIntFuel fuel buf B bo n k = BitBuffer.decodeIntLoop buf B bo n k := by
  intro fuel
  induction fuel with
  | zero =>
    intro buf B bo n k hk
    have hz : k = 0 := Nat.le_zero.mp hk
    subst hz
    rw [BitBuffer.decodeIntLoop.eq_def]
    simp [BitBuffer.decodeIntFuel]
  | succ f ih =>
    intro buf B bo n k hk
    by_cases h : k = 0 ∨ 8 ≤ bo
    · rw [BitBuffer.decodeIntLoop.eq_def]
      simp only [BitBuffer.decodeIntFuel, if_pos h]
    · rw [BitBuffer.decodeIntLoop.eq_def]
      simp only [BitBuffer.decodeIntFuel, if_neg h]
      by_cases h2 : bo + min k (8 - bo) = 8
      · rw [if_pos h2, if_pos h2]
        exact ih _ _ _ _ _ (by omega)
      · rw [if_neg h2, if_neg h2]
        exact ih _ _ _ _ _ (by omega)

lemma decodeIntLoop_eq_fuel (buf : List Int) (B bo : Nat) (n : Int) (k : Nat) :
    BitBuffer.decodeIntLoop buf B bo n k = BitBuffer.decodeIntFuel k buf B bo n k :=
  (decodeIntFuel_eq k buf B bo n k (le_refl k)).symm

lemma encodeBigIntFuel_eq : ∀ (fuel : Nat) (buf : List Int) (B bo : Nat) (n : Nat) (k : Nat),
    k ≤ fuel →
      BitBuffer.encodeBigIntFuel fuel buf B bo n k = BitBuffer.encodeBigIntLoop buf B bo n k := by
  intro fuel
  induction fuel with
  | zero =>
    intro buf B bo n k hk
    have hz : k = 0 := Nat.le_zero.mp hk
    subst hz
    rw [BitBuffer.encodeBigIntLoop.eq_def]
    simp [BitBuffer.encodeBigIntFuel]
  | succ f ih =>
    intro buf B bo n k hk
    by_cases h : k = 0 ∨ 8 ≤ bo
    · rw [BitBuffer.encodeBigIntLoop.eq_def]
      simp only [BitBuffer.encodeBigIntFuel, if_pos h]
    · rw [BitBuffer.encodeBigIntLoop.eq_def]
      simp only [BitBuffer.encodeBigIntFuel, if_neg h]
      by_cases h2 : bo + min k (8 - bo) = 8
      · rw [if_pos h2, if_pos h2]
        exact ih _ _ _ _ _ (by omega)
      · rw [if_neg h2, if_neg h2]
        exact ih _ _ _ _ _ (by omega)

lemma encodeBigIntLoop_eq_fuel (buf : List Int) (B bo : Nat) (n : Nat) (k : Nat) :
    BitBuffer.encodeBigIntLoop buf B bo n k = BitBuffer.encodeBigIntFuel k buf B bo n k :=
  (encodeBigIntFuel_eq k buf B bo n k (le_refl k)).symm

lemma decodeBigIntFuel_eq : ∀ (fuel : Nat) (buf : List Int) (B bo : Nat) (n : Nat) (k : Nat),
    k ≤ fuel →
      BitBuffer.decodeBigIntFuel fuel buf B bo n k = BitBuffer.decodeBigIntLoop buf B bo n k := by
  intro fuel
  induction fuel with
  | zero =>
    intro buf B bo n k hk
    have hz : k = 0 := Nat.le_zero.mp hk
    subst hz
    rw [BitBuffer.decodeBigIntLoop.eq_def]
    simp [BitBuffer.decodeBigIntFuel]
  | succ f ih =>
    intro buf B bo n k hk
    by_cases h : k = 0 ∨ 8 ≤ bo
    · rw [BitBuffer.decodeBigIntLoop.eq_def]
      simp only [BitBuffer.decodeBigIntFuel, if_pos h]
    · rw [BitBuffer.decodeBigIntLoop.eq_def]
      simp only [BitBuffer.decodeBigIntFuel, if_neg h]
      by_cases h2 : bo + min k (8 - bo) = 8
      · rw [if_pos h2, if_pos h2]
        exact ih _ _ _ _ _ (by omega)
      · rw [if_neg h2, if_neg h2]
        exact ih _ _ _ _ _ (by omega)

lemma decodeBigIntLoop_eq_fuel (buf : List Int) (B bo : Nat) (n : Nat) (k : Nat) :
    BitBuffer.decodeBigIntLoop buf B bo n k = BitBuffer.decodeBigIntFuel k buf B bo n k :=
  (decodeBigIntFuel_eq k buf B bo n k (le_refl k)).symm

/-! ## Encoded size (C6) -/

lemma mapToFixedPoints_length (opts : FixedPointOpts) :
    ∀ (l : List DecomposedFloat) (fps : List FixedPointValue),
      mapToFixedPoints opts l = some fps → fps.length = l.length := by
  intro l
  induction l with
  | nil =>
    intro fps h
    simp only [mapToFixedPoints, Option.some.injEq] at h
    subst h
    rfl
  | cons f t ih =>
    intro fps h
    simp only [mapToFixedPoints] at h
    rcases hfp : toFixedPoint f opts with _ | fp
    · rw [hfp] at h
      cases h
    · rw [hfp] at h
      rcases ht : mapToFixedPoints opts t with _ | fps'
      · rw [ht] at h
        cases h
      · rw [ht] at h
        have h2 : some (fp :: fps') = some fps := h
        cases h2
        simp [ih fps' ht]

lemma foldl_jsMaxStep_isSome : ∀ (es : List Int) (a : Int),
    (es.foldl jsMaxStep (some a)).isSome := by
  intro es
  induction es with
  | nil => intro a; rfl
  | cons e t ih =>
    intro a
    rw [List.foldl_cons]
    exact ih (max a e)

lemma batchMaxExp_none_eq_nil (l : List DecomposedFloat) (h : batchMaxExp l = none) :
    l = [] := by
  cases l with
  | nil => rfl
  | cons f t =>
    exfalso
    have h2 : ((f :: t).map (fun g => g.exp + 1)).foldl jsMaxStep none = none := h
    rw [List.map_cons, List.foldl_cons] at h2
    have h3 := foldl_jsMaxStep_isSome (t.map (fun g => g.exp + 1)) (f.exp + 1)
    have h4 : (t.map (fun g => g.exp + 1)).foldl jsMaxStep (some (f.exp + 1)) = none := h2
    rw [h4] at h3
    simp at h3

/-- The sign/mantissa writing fold of `encodeFixedPoints` keeps the buffer
well-formed, keeps `end` equal to the cursor, and advances both by exactly
`1 + mantBits` bits per value. -/
lemma encodePairs_fold (mb : Nat) : ∀ (fps : List FixedPointValue) (b : BitBuffer),
    BitBufferWF b → b.«end» = b.totalBitOffset →
    BitBufferWF (fps.foldl (fun bb fp =>
        (bb.encodeInt (if fp.neg then 1 else 0) 1).encodeBigInt fp.mant mb) b)
      ∧ (fps.foldl (fun bb fp =>
          (bb.encodeInt (if fp.neg then 1 else 0) 1).encodeBigInt fp.mant mb) b).«end»
        = b.totalBitOffset + fps.length * (1 + mb)
      ∧ (fps.foldl (fun bb fp =>
          (bb.encodeInt (if fp.neg then 1 else 0) 1).encodeBigInt fp.mant mb) b).totalBitOffset
        = b.totalBitOffset + fps.length * (1 + mb) := by
  intro fps
  induction fps with
  | nil =>
    intro b hwf hend
    refine ⟨hwf, ?_, ?_⟩ <;> simp [hend]
  | cons fp t ih =>
    intro b hwf hend
    simp only [List.foldl_cons]
    obtain ⟨w1, o1, e1, _⟩ := encodeInt_spec b (if fp.neg then 1 else 0) 1 hwf
    obtain ⟨w2, o2, e2, _⟩ :=
      encodeBigInt_spec (b.encodeInt (if fp.neg then 1 else 0) 1) fp.mant mb w1
    set b2 := (b.encodeInt (if fp.neg then 1 else 0) 1).encodeBigInt fp.mant mb with hb2
    have hend2 : b2.«end» = b2.totalBitOffset := by
      rw [e2, o2, o1, e1, hend]
      omega
    obtain ⟨W, E, O⟩ := ih b2 w2 hend2
    refine ⟨W, ?_, ?_⟩
    · rw [E, o2, o1, List.length_cons, Nat.succ_mul]
      omega
    · rw [O, o2, o1, List.length_cons, Nat.succ_mul]
      omega

/-- With `end` at the cursor in a well-formed buffer, the backing store has
at least `ceil(end / 8)` bytes. -/
lemma ceil_le_of_wf (b : BitBuffer) (hwf : BitBufferWF b)
    (hend : b.«end» = b.totalBitOffset) : (b.«end» + 7) / 8 ≤ b.buf.length := by
  obtain ⟨h1, h2, h3⟩ := hwf
  rcases Nat.eq_zero_or_pos b.bitOffset with hz | hp
  · rw [hend]
    unfold BitBuffer.totalBitOffset
    omega
  · have h4 := h3 (by omega)
    rw [hend]
    unfold BitBuffer.totalBitOffset
    omega

/-- `toBytes` returns `ceil(end / 8)` bytes whenever the store is at least
that long. -/
lemma toBytes_length (b : BitBuffer) (h : (b.«end» + 7) / 8 ≤ b.buf.length) :
    b.toBytes.length = (b.«end» + 7) / 8 := by
  simp only [BitBuffer.toBytes, List.length_map, List.length_take]
  omega

/-- C6: when `encodeFixedPoints` on a fresh buffer succeeds with a batch of
`N` values under scheme `(expBits, mantBits)`, the high-water mark `end` is
exactly `expBits + N*(1+mantBits)` bits and `toBytes()` has exactly
`ceil((expBits + N*(1+mantBits)) / 8)` bytes. -/
theorem encodeFixedPoints_size (vals : List Nat) (scheme : PrecisionScheme) (b' : BitBuffer)
    (hok : (BitBuffer.new 0).encodeFixedPoints vals scheme = .ok b') :
    b'.«end» = scheme.expBits + vals.length * (1 + scheme.mantBits)
      ∧ b'.toBytes.length
        = (scheme.expBits + vals.length * (1 + scheme.mantBits) + 7) / 8 := by
  have hwf0 := wf_new 0
  have hN0 : (BitBuffer.new 0).«end» = 0 := rfl
  have hT0 : (BitBuffer.new 0).totalBitOffset = 0 := rfl
  simp only [BitBuffer.encodeFixedPoints] at hok
  rcases hmax : batchMaxExp (vals.map toFloat) with _ | m
  · simp only [hmax] at hok
    have h0 := batchMaxExp_none_eq_nil (vals.map toFloat) hmax
    have hnil : vals = [] := by
      cases vals with
      | nil => rfl
      | cons v t => simp at h0
    subst hnil
    injection hok with hok
    subst hok
    obtain ⟨w1, o1, e1, _⟩ := encodeInt_spec (BitBuffer.new 0)
      (jsAnd 0 (jsShl 1 ((scheme.expBits : Int)) - 1)) scheme.expBits hwf0
    have hend' : ((BitBuffer.new 0).encodeInt (jsAnd 0 (jsShl 1 ((scheme.expBits : Int)) - 1))
        scheme.expBits).«end»
      = ((BitBuffer.new 0).encodeInt (jsAnd 0 (jsShl 1 ((scheme.expBits : Int)) - 1))
        scheme.expBits).totalBitOffset := by
      rw [e1, o1, hN0, hT0]
      omega
    have hc := ceil_le_of_wf _ w1 hend'
    refine ⟨?_, ?_⟩
    · rw [e1, hN0, hT0]
      simp only [List.length_nil]
      omega
    · rw [toBytes_length _ hc, e1, hN0, hT0]
      simp only [List.length_nil]
      omega
  · simp only [hmax] at hok
    by_cases hch : jsShl 1 ((scheme.expBits : Int) - 1) ≤ m
    · rw [if_pos hch] at hok
      cases hok
    · rw [if_neg hch] at hok
      rcases hfps : mapToFixedPoints ⟨scheme.mantBits, some m⟩ (vals.map toFloat) with _ | fps
      · simp only [hfps] at hok
        cases hok
      · simp only [hfps] at hok
        injection hok with hok
        subst hok
        obtain ⟨w1, o1, e1, _⟩ := encodeInt_spec (BitBuffer.new 0)
          (jsAnd (m + jsShl 1 ((scheme.expBits : Int) - 1)) (jsShl 1 ((scheme.expBits : Int)) - 1))
          scheme.expBits hwf0
        set b1 := (BitBuffer.new 0).encodeInt
          (jsAnd (m + jsShl 1 ((scheme.expBits : Int) - 1)) (jsShl 1 ((scheme.expBits : Int)) - 1))
          scheme.expBits with hb1
        have hend1 : b1.«end» = b1.totalBitOffset := by
          rw [e1, o1, hN0, hT0]
          omega
        obtain ⟨W, E, O⟩ := encodePairs_fold scheme.mantBits fps b1 w1 hend1
        have hlen : fps.length = vals.length := by
          rw [mapToFixedPoints_length _ _ _ hfps, List.length_map]
        have hb1T : b1.totalBitOffset = scheme.expBits := by
          rw [o1, hT0]
          omega
        have hend' : (fps.foldl (fun bb fp =>
            (bb.encodeInt (if fp.neg then 1 else 0) 1).encodeBigInt fp.mant scheme.mantBits)
            b1).«end»
          = (fps.foldl (fun bb fp =>
            (bb.encodeInt (if fp.neg then 1 else 0) 1).encodeBigInt fp.mant scheme.mantBits)
            b1).totalBitOffset := by
          rw [E, O]
        have hc := ceil_le_of_wf _ W hend'
        refine ⟨?_, ?_⟩
        · rw [E, hb1T, hlen]
        · rw [toBytes_length _ hc, E, hb1T, hlen]

/-- Witness for C6: the one-element batch `[1.0]` with scheme `5+16` ends
at `5 + 1*17 = 22` bits and serializes to `ceil(22/8) = 3` bytes. -/
theorem encodeFixedPoints_size_witness :
    (BitBuffer.new 0).encodeFixedPoints [1023 * 2^52] ⟨5, 16⟩
        = .ok ⟨[138, 0, 0], 2, 6, 22⟩
      ∧ ((⟨[138, 0, 0], 2, 6, 22⟩ : BitBuffer).«end»
            = 5 + [1023 * 2^52].length * (1 + 16)
        ∧ ((⟨[138, 0, 0], 2, 6, 22⟩ : BitBuffer).toBytes).length
            = (5 + [1023 * 2^52].length * (1 + 16) + 7) / 8) := by
  have hok : (BitBuffer.new 0).encodeFixedPoints [1023 * 2^52] ⟨5, 16⟩
      = .ok ⟨[138, 0, 0], 2, 6, 22⟩ := by
    simp only [BitBuffer.encodeFixedPoints, BitBuffer.encodeInt, BitBuffer.encodeBigInt,
      encodeIntLoop_eq_fuel, encodeBigIntLoop_eq_fuel]
    decide
  exact ⟨hok, encodeFixedPoints_size [1023 * 2^52] ⟨5, 16⟩ ⟨[138, 0, 0], 2, 6, 22⟩ hok⟩


/-! ## C5 helpers: getD characterizations -/

lemma getD_append_zero (l : List Int) (i : Nat) : (l ++ [(0:Int)]).getD i 0 = l.getD i 0 := by
  induction l generalizing i with
  | nil => cases i <;> simp [List.getD]
  | cons a t ih =>
    cases i with
    | zero => simp
    | succ n => simpa [List.getD] using ih n

lemma getD_replicate_zero (n x : Nat) : (List.replicate n (0:Int)).getD x 0 = 0 := by
  rcases Nat.lt_or_ge x n with h | h
  · rw [List.getD_eq_getElem?_getD, List.getElem?_replicate, if_pos h]
    rfl
  · rw [List.getD_eq_default _ _ (by simpa using h)]

lemma jsArraySet_getD (l : List Int) (i j : Nat) (v : Int) :
    (BitBuffer.jsArraySet l i v).getD j 0 = if j = i then v else l.getD j 0 := by
  unfold BitBuffer.jsArraySet
  split
  · rename_i h
    by_cases hj : j = i
    · subst hj
      rw [if_pos rfl]
      simp [List.getD_eq_getElem?_getD, List.getElem?_set_self, h]
    · rw [if_neg hj]
      simp [List.getD_eq_getElem?_getD, List.getElem?_set_ne (fun hc => hj hc.symm)]
  · rename_i h
    push_neg at h
    by_cases hj : j = i
    · subst hj
      rw [if_pos rfl]
      have hlen : (l ++ List.replicate (j - l.length) 0).length = j := by
        simp
        omega
      rw [List.getD_append_right _ _ _ _ (by omega), hlen]
      simp
    · rw [if_neg hj]
      rcases Nat.lt_trichotomy j l.length with hj1 | hj1 | hj1
      · rw [List.getD_append _ _ _ _ (by simp; omega), List.getD_append _ _ _ _ hj1]
      · rcases Nat.lt_or_ge j i with hj2 | hj2
        · rw [List.getD_append _ _ _ _ (by simp; omega),
            List.getD_append_right _ _ _ _ (by omega), getD_replicate_zero,
            List.getD_eq_default _ _ (by omega)]
        · rw [List.getD_eq_default _ _ (by simp; omega),
            List.getD_eq_default _ _ (by omega)]
      · rcases Nat.lt_or_ge j i with hj2 | hj2
        · rw [List.getD_append _ _ _ _ (by simp; omega),
            List.getD_append_right _ _ _ _ (by omega), getD_replicate_zero,
            List.getD_eq_default _ _ (by omega)]
        · rw [List.getD_eq_default _ _ (by simp; omega),
            List.getD_eq_default _ _ (by omega)]

lemma jsArraySet_length (l : List Int) (i : Nat) (v : Int) :
    (BitBuffer.jsArraySet l i v).length = max l.length (i + 1) := by
  unfold BitBuffer.jsArraySet
  split
  · rw [List.length_set]
    omega
  · simp
    omega

/-- `x << k` on a small non-negative value is exact multiplication. -/
lemma jsShl_nat (x k : Nat) (hx : x <<< k < 2^31) (hk : k < 32) :
    jsShl (x : Int) (k : Int) = ((x <<< k : Nat) : Int) := by
  have hxle : x ≤ x <<< k := by
    rw [Nat.shiftLeft_eq]
    exact Nat.le_mul_of_pos_right x (Nat.pos_pow_of_pos _ (by norm_num))
  have h1 : toUint32 (x : Int) = x := toUint32_natCast_of_lt x (by omega)
  have hk32 : k % 2^32 % 32 = k := by omega
  simp only [jsShl, h1, toUint32_natCast, hk32]
  exact toInt32_natCast _ hx

/-- The unsigned reading of the mask `(1 << t) - 1`, valid through `t = 31`
(where the shift itself wraps negative). -/
lemma mask_toUint32 (t : Nat) (ht : t ≤ 31) :
    toUint32 (jsShl 1 (t : Int) - 1) = 2^t - 1 := by
  rcases Nat.lt_or_ge t 31 with h31 | h31
  · rw [jsShl_one t h31]
    have h1 : (1:Nat) ≤ 2^t := Nat.one_le_two_pow
    have h2 : ((2^t : Nat) : Int) - 1 = ((2^t - 1 : Nat) : Int) := by
      rw [Int.ofNat_sub h1]
      rfl
    rw [h2]
    have h3 : 2^t ≤ 2^31 := Nat.pow_le_pow_right (by norm_num) ht
    exact toUint32_natCast_of_lt _ (by omega)
  · have ht31 : t = 31 := by omega
    subst ht31
    decide

/-- `v & ((1 << w) - 1) << s` extracts the `w`-bit field of `v` at bit
offset `s`, including the case where the Int32 mask wraps negative. -/
lemma jsAnd_field (v w s : Nat) (hv : v < 2^31) (hw : w < 31) (hs : s < 32)
    (hws : w + s ≤ 32) :
    jsAnd (v : Int) (jsShl (jsShl 1 (w : Int) - 1) (s : Int))
      = ((v / 2^s % 2^w * 2^s : Nat) : Int) := by
  have h1 : (1:Nat) ≤ 2^w := Nat.one_le_two_pow
  have hm : jsShl 1 (w : Int) - 1 = ((2^w - 1 : Nat) : Int) := by
    rw [jsShl_one w hw, Int.ofNat_sub h1]
    rfl
  have hsh : (2^w - 1) <<< s < 2^32 := by
    rw [Nat.shiftLeft_eq]
    calc (2^w - 1) * 2^s < 2^w * 2^s := by
          have := Nat.pos_pow_of_pos s (show 0 < 2 by norm_num)
          exact (Nat.mul_lt_mul_right this).mpr (by omega)
    _ = 2^(w+s) := by rw [pow_add]
    _ ≤ 2^32 := Nat.pow_le_pow_right (by norm_num) hws
  have h2 : toUint32 (jsShl ((2^w - 1 : Nat) : Int) (s : Int)) = (2^w - 1) <<< s := by
    have ha : toUint32 ((2^w - 1 : Nat) : Int) = 2^w - 1 := by
      have h3 : 2^w ≤ 2^31 := Nat.pow_le_pow_right (by norm_num) (by omega)
      exact toUint32_natCast_of_lt _ (by omega)
    have hs32 : s % 2^32 % 32 = s := by omega
    simp only [jsShl, ha, toUint32_natCast, hs32, toUint32_toInt32]
    exact toUint32_natCast_of_lt _ hsh
  have hres : v / 2^s % 2^w * 2^s ≤ v := by
    calc v / 2^s % 2^w * 2^s ≤ v / 2^s * 2^s :=
          Nat.mul_le_mul_right _ (Nat.mod_le _ _)
    _ ≤ v := Nat.div_mul_le_self v _
  rw [hm]
  simp only [jsAnd, toUint32_natCast_of_lt v (by omega), h2]
  rw [show Nat.land v ((2^w - 1) <<< s) = v &&& ((2^w - 1) <<< s) from rfl, nat_and_mask]
  exact toInt32_natCast _ (by omega)

/-- `v & ((1 << t) - 1)` keeps the low `t` bits, through `t = 31`. -/
lemma jsAnd_lowmask (v t : Nat) (hv : v < 2^31) (ht : t ≤ 31) :
    jsAnd (v : Int) (jsShl 1 (t : Int) - 1) = ((v % 2^t : Nat) : Int) := by
  simp only [jsAnd, toUint32_natCast_of_lt v (by omega), mask_toUint32 t ht]
  rw [show Nat.land v (2^t - 1) = v &&& (2^t - 1) from rfl, Nat.and_pow_two_sub_one_eq_mod]
  exact toInt32_natCast _ (by have := Nat.mod_le v (2^t); omega)

lemma encodeIntLoop_zero (buf : List Int) (B bo : Nat) (n : Int) :
    BitBuffer.encodeIntLoop buf B bo n 0 = (buf, B, bo) := by
  rw [BitBuffer.encodeIntLoop, if_pos (Or.inl rfl)]

lemma decodeIntLoop_zero (buf : List Int) (B bo : Nat) (n : Int) :
    BitBuffer.decodeIntLoop buf B bo n 0 = (B, bo, n) := by
  rw [BitBuffer.decodeIntLoop, if_pos (Or.inl rfl)]

/-- `encodeIntLoop` never touches bytes below its starting byte offset. -/
lemma encodeIntLoop_frame (buf : List Int) (B bo : Nat) (n : Int) (k : Nat) :
    ∀ i, i < B → ((BitBuffer.encodeIntLoop buf B bo n k).1).getD i 0 = buf.getD i 0 := by
  induction buf, B, bo, n, k using BitBuffer.encodeIntLoop.induct with
  | case1 buf B bo n k h =>
    intro i hi
    rw [BitBuffer.encodeIntLoop, if_pos h]
  | case2 buf B bo n k h buf1 rem w blib bltw mask sbtw buf2 n' hroll ih =>
    intro i hi
    rw [BitBuffer.encodeIntLoop, if_neg h]
    unfold_let buf1 rem w blib bltw mask sbtw buf2 n' at hroll ih
    first
    | simp only [dite_eq_ite] at ih
    | skip
    rw [if_pos hroll]
    rw [ih i (by omega)]
    rw [jsArraySet_getD, if_neg (by omega)]
    by_cases hg : buf.length ≤ B
    · rw [if_pos hg, getD_append_zero]
    · rw [if_neg hg]
  | case3 buf B bo n k h buf1 rem w blib bltw mask sbtw buf2 n' hroll ih =>
    intro i hi
    rw [BitBuffer.encodeIntLoop, if_neg h]
    unfold_let buf1 rem w blib bltw mask sbtw buf2 n' at hroll ih
    first
    | simp only [dite_eq_ite] at ih
    | skip
    rw [if_neg hroll]
    rw [ih i (by omega)]
    rw [jsArraySet_getD, if_neg (by omega)]
    by_cases hg : buf.length ≤ B
    · rw [if_pos hg, getD_append_zero]
    · rw [if_neg hg]

/-- One chunk of `encodeIntLoop` on a fresh byte, fully evaluated. -/
lemma encodeIntLoop_chunk (buf : List Int) (B bo : Nat) (v k c : Nat)
    (h1 : bo < 8) (hk : 1 ≤ k) (hk32 : k ≤ 32) (hv : v < 2^k) (hv31 : v < 2^31)
    (hc : c < 2^bo) (hbyte : buf.getD B 0 = ((c * 2^(8 - bo) : Nat) : Int)) :
    BitBuffer.encodeIntLoop buf B bo (v : Int) k
      = BitBuffer.encodeIntLoop
          (BitBuffer.jsArraySet (if buf.length ≤ B then buf ++ [0] else buf) B
            ((c * 2^(8 - bo) + v / 2^(k - min k (8 - bo)) * 2^(8 - bo - min k (8 - bo)) : Nat)
              : Int))
          (if bo + min k (8 - bo) = 8 then B + 1 else B)
          (if bo + min k (8 - bo) = 8 then 0 else bo + min k (8 - bo))
          ((v % 2^(k - min k (8 - bo)) : Nat) : Int)
          (k - min k (8 - bo)) := by
  have hg : ¬(k = 0 ∨ 8 ≤ bo) := by omega
  have hvt : v / 2^(k - min k (8 - bo)) < 2^(min k (8 - bo)) := by
    rw [Nat.div_lt_iff_lt_mul (Nat.pos_pow_of_pos _ (by norm_num)), ← pow_add]
    have he : min k (8 - bo) + (k - min k (8 - bo)) = k := by omega
    rw [he]
    exact hv
  have hA : jsAnd (v : Int)
      (jsShl (jsShl 1 ((min k (8 - bo) : Nat) : Int) - 1) ((k - min k (8 - bo) : Nat) : Int))
      = ((v / 2^(k - min k (8 - bo)) * 2^(k - min k (8 - bo)) : Nat) : Int) := by
    rw [jsAnd_field v _ _ hv31 (by omega) (by omega) (by omega), Nat.mod_eq_of_lt hvt]
  have hxle : v / 2^(k - min k (8 - bo)) * 2^(k - min k (8 - bo)) ≤ v := Nat.div_mul_le_self v _
  have hB : jsShr ((v / 2^(k - min k (8 - bo)) * 2^(k - min k (8 - bo)) : Nat) : Int)
      ((k - min k (8 - bo) : Nat) : Int) = ((v / 2^(k - min k (8 - bo)) : Nat) : Int) := by
    rw [jsShr_nat _ _ (by omega) (by omega),
      Nat.mul_div_cancel _ (Nat.pos_pow_of_pos _ (by norm_num))]
  have hb1 : (if buf.length ≤ B then buf ++ [0] else buf).getD B 0
      = ((c * 2^(8 - bo) : Nat) : Int) := by
    by_cases hgr : buf.length ≤ B
    · rw [if_pos hgr, getD_append_zero]
      exact hbyte
    · rw [if_neg hgr]
      exact hbyte
  have hd : v / 2^(k - min k (8 - bo)) * 2^(8 - bo - min k (8 - bo)) < 2^(8 - bo) := by
    calc v / 2^(k - min k (8 - bo)) * 2^(8 - bo - min k (8 - bo))
        < 2^(min k (8 - bo)) * 2^(8 - bo - min k (8 - bo)) :=
          (Nat.mul_lt_mul_right (Nat.pos_pow_of_pos _ (by norm_num))).mpr hvt
    _ = 2^(8 - bo) := by
          rw [← pow_add]
          congr 1
          omega
  have hple : 2^(8 - bo) ≤ 256 := by
    calc 2^(8 - bo) ≤ 2^8 := Nat.pow_le_pow_right (by norm_num) (by omega)
    _ = 256 := by norm_num
  have h256 : 2^bo * 2^(8 - bo) = 256 := by
    rw [← pow_add]
    have hb8 : bo + (8 - bo) = 8 := by omega
    rw [hb8]
    norm_num
  have hcb : c * 2^(8 - bo) ≤ (2^bo - 1) * 2^(8 - bo) :=
    Nat.mul_le_mul_right _ (by omega)
  have hsubm : (2^bo - 1) * 2^(8 - bo) = 256 - 2^(8 - bo) := by
    rw [Nat.sub_mul, one_mul, h256]
  have hsum : c * 2^(8 - bo) + v / 2^(k - min k (8 - bo)) * 2^(8 - bo - min k (8 - bo)) < 256 := by
    omega
  have hSh : jsShl ((v / 2^(k - min k (8 - bo)) : Nat) : Int)
      ((8 - bo - min k (8 - bo) : Nat) : Int)
      = ((v / 2^(k - min k (8 - bo)) * 2^(8 - bo - min k (8 - bo)) : Nat) : Int) := by
    rw [jsShl_nat _ _ (by rw [Nat.shiftLeft_eq]; omega) (by omega), Nat.shiftLeft_eq]
  have hC : jsOr ((c * 2^(8 - bo) : Nat) : Int)
      ((v / 2^(k - min k (8 - bo)) * 2^(8 - bo - min k (8 - bo)) : Nat) : Int)
      = ((c * 2^(8 - bo) + v / 2^(k - min k (8 - bo)) * 2^(8 - bo - min k (8 - bo)) : Nat)
          : Int) :=
    jsOr_disjoint c (8 - bo) _ hd (by omega)
  have hD : jsAnd (v : Int) (jsShl 1 ((k - min k (8 - bo) : Nat) : Int) - 1)
      = ((v % 2^(k - min k (8 - bo)) : Nat) : Int) :=
    jsAnd_lowmask v _ hv31 (by omega)
  conv_lhs => rw [BitBuffer.encodeIntLoop]
  simp only [if_neg hg]
  rw [hA, hB, hb1, hSh, hC, hD]
  by_cases h8 : bo + min k (8 - bo) = 8
  · rw [if_pos h8, if_pos h8, if_pos h8]
  · rw [if_neg h8, if_neg h8, if_neg h8]

/-- One chunk of `decodeIntLoop`, fully evaluated. -/
lemma decodeIntLoop_chunk (buf : List Int) (B bo : Nat) (acc k byte : Nat)
    (h1 : bo < 8) (hk : 1 ≤ k) (hk32 : k ≤ 32)
    (hbyte : buf.getD B 0 = (byte : Int)) (hb256 : byte < 256)
    (hacc : acc * 2^(min k (8 - bo))
        + byte / 2^(8 - bo - min k (8 - bo)) % 2^(min k (8 - bo)) < 2^31) :
    BitBuffer.decodeIntLoop buf B bo (acc : Int) k
      = BitBuffer.decodeIntLoop buf
          (if bo + min k (8 - bo) = 8 then B + 1 else B)
          (if bo + min k (8 - bo) = 8 then 0 else bo + min k (8 - bo))
          ((acc * 2^(min k (8 - bo))
              + byte / 2^(8 - bo - min k (8 - bo)) % 2^(min k (8 - bo)) : Nat) : Int)
          (k - min k (8 - bo)) := by
  have hg : ¬(k = 0 ∨ 8 ≤ bo) := by omega
  have hfld : byte / 2^(8 - bo - min k (8 - bo)) % 2^(min k (8 - bo))
      * 2^(8 - bo - min k (8 - bo)) ≤ byte := by
    calc byte / 2^(8 - bo - min k (8 - bo)) % 2^(min k (8 - bo)) * 2^(8 - bo - min k (8 - bo))
        ≤ byte / 2^(8 - bo - min k (8 - bo)) * 2^(8 - bo - min k (8 - bo)) :=
          Nat.mul_le_mul_right _ (Nat.mod_le _ _)
    _ ≤ byte := Nat.div_mul_le_self byte _
  have hA : jsAnd (byte : Int)
      (jsShl (jsShl 1 ((min k (8 - bo) : Nat) : Int) - 1) ((8 - bo - min k (8 - bo) : Nat) : Int))
      = ((byte / 2^(8 - bo - min k (8 - bo)) % 2^(min k (8 - bo))
          * 2^(8 - bo - min k (8 - bo)) : Nat) : Int) :=
    jsAnd_field byte _ _ (by omega) (by omega) (by omega) (by omega)
  have hB : jsShr ((byte / 2^(8 - bo - min k (8 - bo)) % 2^(min k (8 - bo))
      * 2^(8 - bo - min k (8 - bo)) : Nat) : Int) ((8 - bo - min k (8 - bo) : Nat) : Int)
      = ((byte / 2^(8 - bo - min k (8 - bo)) % 2^(min k (8 - bo)) : Nat) : Int) := by
    rw [jsShr_nat _ _ (by omega) (by omega),
      Nat.mul_div_cancel _ (Nat.pos_pow_of_pos _ (by norm_num))]
  have haccle : acc ≤ acc * 2^(min k (8 - bo)) :=
    Nat.le_mul_of_pos_right _ (Nat.pos_pow_of_pos _ (by norm_num))
  have hSh : jsShl (acc : Int) ((min k (8 - bo) : Nat) : Int)
      = ((acc * 2^(min k (8 - bo)) : Nat) : Int) := by
    rw [jsShl_nat _ _ (by rw [Nat.shiftLeft_eq]; omega) (by omega), Nat.shiftLeft_eq]
  have hC : jsOr ((acc * 2^(min k (8 - bo)) : Nat) : Int)
      ((byte / 2^(8 - bo - min k (8 - bo)) % 2^(min k (8 - bo)) : Nat) : Int)
      = ((acc * 2^(min k (8 - bo))
          + byte / 2^(8 - bo - min k (8 - bo)) % 2^(min k (8 - bo)) : Nat) : Int) :=
    jsOr_disjoint acc (min k (8 - bo)) _ (Nat.mod_lt _ (Nat.pos_pow_of_pos _ (by norm_num))) hacc
  conv_lhs => rw [BitBuffer.decodeIntLoop]
  simp only [if_neg hg]
  rw [hbyte, hA, hB, hSh, hC]
  by_cases h8 : bo + min k (8 - bo) = 8
  · rw [if_pos h8, if_pos h8, if_pos h8]
  · rw [if_neg h8, if_neg h8, if_neg h8]

lemma extract_field (c vt m r : Nat) (hvt : vt < 2^m) :
    (c * 2^(m + r) + vt * 2^r) / 2^r % 2^m = vt := by
  rw [pow_add, ← Nat.mul_assoc, ← Nat.add_mul,
    Nat.mul_div_cancel _ (Nat.pos_pow_of_pos _ (by norm_num)), Nat.mul_comm c (2^m),
    Nat.mul_add_mod]
  exact Nat.mod_eq_of_lt hvt

/-- Synchronized round trip of the two loops over a fresh region: decoding
with the same cursor reads back exactly the bits just written, accumulated
below the Int32 sign bit. -/
lemma encode_decode_loop (k : Nat) : ∀ (buf : List Int) (B bo : Nat) (v acc : Nat),
    bo < 8 →
    (∀ i : Nat, 0 ≤ buf.getD i 0 ∧ buf.getD i 0 < 256) →
    (∃ c, c < 2^bo ∧ buf.getD B 0 = ((c * 2^(8 - bo) : Nat) : Int)) →
    (∀ i, B < i → buf.getD i 0 = 0) →
    v < 2^k → k ≤ 32 → acc * 2^k + v < 2^31 →
    BitBuffer.decodeIntLoop (BitBuffer.encodeIntLoop buf B bo (v : Int) k).1 B bo (acc : Int) k
      = ((BitBuffer.encodeIntLoop buf B bo (v : Int) k).2.1,
         (BitBuffer.encodeIntLoop buf B bo (v : Int) k).2.2,
         ((acc * 2^k + v : Nat) : Int)) := by
  induction k using Nat.strong_induction_on with
  | _ k ih =>
  intro buf B bo v acc h1 hent hco hfresh hv hk32 hacc
  obtain ⟨c, hc, hbyte⟩ := hco
  rcases Nat.eq_zero_or_pos k with hk0 | hkpos
  · subst hk0
    have hv0 : v = 0 := by
      have : (2:Nat)^0 = 1 := pow_zero 2
      omega
    subst hv0
    rw [encodeIntLoop_zero, decodeIntLoop_zero]
    norm_num
  · have hv31 : v < 2^31 := lt_of_le_of_lt (Nat.le_add_left v _) hacc
    have hvt : v / 2^(k - min k (8 - bo)) < 2^(min k (8 - bo)) := by
      rw [Nat.div_lt_iff_lt_mul (Nat.pos_pow_of_pos _ (by norm_num)), ← pow_add]
      have he : min k (8 - bo) + (k - min k (8 - bo)) = k := by omega
      rw [he]
      exact hv
    have hdlt : v / 2^(k - min k (8 - bo)) * 2^(8 - bo - min k (8 - bo)) < 2^(8 - bo) := by
      calc v / 2^(k - min k (8 - bo)) * 2^(8 - bo - min k (8 - bo))
          < 2^(min k (8 - bo)) * 2^(8 - bo - min k (8 - bo)) :=
            (Nat.mul_lt_mul_right (Nat.pos_pow_of_pos _ (by norm_num))).mpr hvt
      _ = 2^(8 - bo) := by
            rw [← pow_add]
            congr 1
            omega
    have hple : 2^(8 - bo) ≤ 256 := by
      calc 2^(8 - bo) ≤ 2^8 := Nat.pow_le_pow_right (by norm_num) (by omega)
      _ = 256 := by norm_num
    have h256 : 2^bo * 2^(8 - bo) = 256 := by
      rw [← pow_add]
      have hb8 : bo + (8 - bo) = 8 := by omega
      rw [hb8]
      norm_num
    have hcb : c * 2^(8 - bo) ≤ (2^bo - 1) * 2^(8 - bo) :=
      Nat.mul_le_mul_right _ (by omega)
    have hsubm : (2^bo - 1) * 2^(8 - bo) = 256 - 2^(8 - bo) := by
      rw [Nat.sub_mul, one_mul, h256]
    have hnb256 : c * 2^(8 - bo)
        + v / 2^(k - min k (8 - bo)) * 2^(8 - bo - min k (8 - bo)) < 256 := by
      omega
    have hext : (c * 2^(8 - bo) + v / 2^(k - min k (8 - bo)) * 2^(8 - bo - min k (8 - bo)))
        / 2^(8 - bo - min k (8 - bo)) % 2^(min k (8 - bo)) = v / 2^(k - min k (8 - bo)) := by
      have hb1 : c * 2^(8 - bo)
          = c * 2^(min k (8 - bo) + (8 - bo - min k (8 - bo))) := by
        have hs : 8 - bo = min k (8 - bo) + (8 - bo - min k (8 - bo)) := by omega
        rw [← hs]
      rw [hb1]
      exact extract_field _ _ _ _ hvt
    have halg : (acc * 2^(min k (8 - bo)) + v / 2^(k - min k (8 - bo)))
        * 2^(k - min k (8 - bo)) + v % 2^(k - min k (8 - bo)) = acc * 2^k + v := by
      rw [Nat.add_mul, Nat.mul_assoc, ← pow_add]
      have he : min k (8 - bo) + (k - min k (8 - bo)) = k := by omega
      rw [he, Nat.add_assoc, Nat.div_add_mod']
    have haccB : acc * 2^(min k (8 - bo)) + v / 2^(k - min k (8 - bo)) < 2^31 := by
      calc acc * 2^(min k (8 - bo)) + v / 2^(k - min k (8 - bo))
          ≤ (acc * 2^(min k (8 - bo)) + v / 2^(k - min k (8 - bo)))
              * 2^(k - min k (8 - bo)) :=
            Nat.le_mul_of_pos_right _ (Nat.pos_pow_of_pos _ (by norm_num))
      _ ≤ (acc * 2^(min k (8 - bo)) + v / 2^(k - min k (8 - bo)))
              * 2^(k - min k (8 - bo)) + v % 2^(k - min k (8 - bo)) := Nat.le_add_right _ _
      _ = acc * 2^k + v := halg
      _ < 2^31 := hacc
    rw [encodeIntLoop_chunk buf B bo v k c h1 hkpos hk32 hv hv31 hc hbyte]
    by_cases h8 : bo + min k (8 - bo) = 8
    · simp only [if_pos h8]
      have hAt : (BitBuffer.jsArraySet (if buf.length ≤ B then buf ++ [0] else buf) B
          ((c * 2^(8 - bo) + v / 2^(k - min k (8 - bo)) * 2^(8 - bo - min k (8 - bo)) : Nat)
            : Int)).getD B 0
          = ((c * 2^(8 - bo) + v / 2^(k - min k (8 - bo)) * 2^(8 - bo - min k (8 - bo)) : Nat)
            : Int) := by
        rw [jsArraySet_getD, if_pos rfl]
      have hfr : ((BitBuffer.encodeIntLoop
          (BitBuffer.jsArraySet (if buf.length ≤ B then buf ++ [0] else buf) B
            ((c * 2^(8 - bo) + v / 2^(k - min k (8 - bo)) * 2^(8 - bo - min k (8 - bo)) : Nat)
              : Int))
          (B + 1) 0 ((v % 2^(k - min k (8 - bo)) : Nat) : Int) (k - min k (8 - bo))).1).getD B 0
          = ((c * 2^(8 - bo) + v / 2^(k - min k (8 - bo)) * 2^(8 - bo - min k (8 - bo)) : Nat)
            : Int) := by
        rw [encodeIntLoop_frame _ _ _ _ _ B (by omega), hAt]
      rw [decodeIntLoop_chunk _ B bo acc k _ h1 hkpos hk32 hfr hnb256 (by rw [hext]; exact haccB)]
      simp only [if_pos h8]
      rw [hext]
      have hent2 : ∀ i : Nat, 0 ≤ (BitBuffer.jsArraySet
          (if buf.length ≤ B then buf ++ [0] else buf) B
          ((c * 2^(8 - bo) + v / 2^(k - min k (8 - bo)) * 2^(8 - bo - min k (8 - bo)) : Nat)
            : Int)).getD i 0
          ∧ (BitBuffer.jsArraySet (if buf.length ≤ B then buf ++ [0] else buf) B
          ((c * 2^(8 - bo) + v / 2^(k - min k (8 - bo)) * 2^(8 - bo - min k (8 - bo)) : Nat)
            : Int)).getD i 0 < 256 := by
        intro i
        rw [jsArraySet_getD]
        by_cases hiB : i = B
        · rw [if_pos hiB]
          refine ⟨Int.natCast_nonneg _, ?_⟩
          exact_mod_cast hnb256
        · rw [if_neg hiB]
          by_cases hgr : buf.length ≤ B
          · rw [if_pos hgr, getD_append_zero]
            exact hent i
          · rw [if_neg hgr]
            exact hent i
      have hco2 : ∃ c2, c2 < 2^0 ∧ (BitBuffer.jsArraySet
          (if buf.length ≤ B then buf ++ [0] else buf) B
          ((c * 2^(8 - bo) + v / 2^(k - min k (8 - bo)) * 2^(8 - bo - min k (8 - bo)) : Nat)
            : Int)).getD (B + 1) 0 = ((0 * 2^(8 - 0) : Nat) : Int) := by
        refine ⟨0, by norm_num, ?_⟩
        rw [jsArraySet_getD, if_neg (by omega)]
        have hz : buf.getD (B + 1) 0 = 0 := hfresh (B + 1) (by omega)
        by_cases hgr : buf.length ≤ B
        · rw [if_pos hgr, getD_append_zero, hz]
          norm_num
        · rw [if_neg hgr, hz]
          norm_num
      have hfresh2 : ∀ i, B + 1 < i → (BitBuffer.jsArraySet
          (if buf.length ≤ B then buf ++ [0] else buf) B
          ((c * 2^(8 - bo) + v / 2^(k - min k (8 - bo)) * 2^(8 - bo - min k (8 - bo)) : Nat)
            : Int)).getD i 0 = 0 := by
        intro i hi
        rw [jsArraySet_getD, if_neg (by omega)]
        by_cases hgr : buf.length ≤ B
        · rw [if_pos hgr, getD_append_zero]
          exact hfresh i (by omega)
        · rw [if_neg hgr]
          exact hfresh i (by omega)
      rw [ih (k - min k (8 - bo)) (by omega) _ (B + 1) 0 (v % 2^(k - min k (8 - bo)))
        (acc * 2^(min k (8 - bo)) + v / 2^(k - min k (8 - bo))) (by norm_num) hent2
        ⟨0, by norm_num, hco2.choose_spec.2⟩ hfresh2
        (Nat.mod_lt _ (Nat.pos_pow_of_pos _ (by norm_num))) (by omega)
        (by rw [halg]; exact hacc)]
      rw [halg]
    · have hmin : min k (8 - bo) = k := by omega
      have hext2 : (c * 2^(8 - bo) + v * 2^(8 - bo - k)) / 2^(8 - bo - k) % 2^k = v := by
        have hh := hext
        rw [hmin, Nat.sub_self, pow_zero, Nat.div_one] at hh
        exact hh
      have hnb256b : c * 2^(8 - bo) + v * 2^(8 - bo - k) < 256 := by
        have hh := hnb256
        rw [hmin, Nat.sub_self, pow_zero, Nat.div_one] at hh
        exact hh
      simp only [if_neg h8]
      rw [hmin, Nat.sub_self, pow_zero, Nat.mod_one, Nat.div_one]
      rw [encodeIntLoop_zero]
      have hbyte2 : (BitBuffer.jsArraySet (if buf.length ≤ B then buf ++ [0] else buf) B
          ((c * 2^(8 - bo) + v * 2^(8 - bo - k) : Nat) : Int)).getD B 0
          = ((c * 2^(8 - bo) + v * 2^(8 - bo - k) : Nat) : Int) := by
        rw [jsArraySet_getD, if_pos rfl]
      rw [decodeIntLoop_chunk _ B bo acc k _ h1 hkpos hk32 hbyte2 hnb256b
        (by rw [hmin, hext2]; exact hacc)]
      simp only [if_neg h8]
      rw [hmin, Nat.sub_self, hext2]
      rw [decodeIntLoop_zero]

/-- C5 (amended): `decodeInt` inverts `encodeInt` on a fresh buffer at any
starting bit offset `t`, for widths 1..32, provided the value also stays
below `2^31` (the Int32 accumulator bound). -/
theorem encodeInt_decodeInt (t v k : Nat) (hk1 : 1 ≤ k) (hk : k ≤ 32)
    (hv : v < 2^k) (hv31 : v < 2^31) :
    (((((BitBuffer.new 0).seek t).encodeInt (v : Int) k).seek t).decodeInt k).2 = (v : Int) := by
  have hent : ∀ i : Nat, 0 ≤ ([] : List Int).getD i 0 ∧ ([] : List Int).getD i 0 < 256 := by
    intro i
    refine ⟨le_refl 0, by norm_num⟩
  have hco : ∃ c, c < 2^(t % 8)
      ∧ ([] : List Int).getD (t / 8) 0 = ((c * 2^(8 - t % 8) : Nat) : Int) := by
    refine ⟨0, Nat.pos_pow_of_pos _ (by norm_num), by simp⟩
  have hfresh : ∀ i, t / 8 < i → ([] : List Int).getD i 0 = 0 := fun i _ => rfl
  have hRT := encode_decode_loop k [] (t / 8) (t % 8) v 0 (Nat.mod_lt t (by norm_num))
    hent hco hfresh hv hk (by simpa using hv31)
  simp only [Nat.cast_zero, Nat.zero_mul, Nat.zero_add] at hRT
  have hsplit : (((BitBuffer.new 0).seek t).encodeInt (v : Int) k).buf
      = (BitBuffer.encodeIntLoop [] (t / 8) (t % 8) (v : Int) k).1 := by
    simp only [BitBuffer.encodeInt, BitBuffer.seek, BitBuffer.new, List.replicate_zero]
    split <;> rfl
  show (BitBuffer.decodeIntLoop ((((BitBuffer.new 0).seek t).encodeInt (v : Int) k).buf)
      (t / 8) (t % 8) 0 k).2.2 = (v : Int)
  rw [hsplit, hRT]

/-- Witness for C5: 1000 written as a 10-bit field at bit offset 3
(straddling the first byte boundary) reads back as 1000. -/
theorem encodeInt_decodeInt_witness :
    (1 ≤ 10 ∧ 10 ≤ 32 ∧ 1000 < 2^10 ∧ 1000 < 2^31)
      ∧ (((((BitBuffer.new 0).seek 3).encodeInt ((1000 : Nat) : Int) 10).seek 3).decodeInt 10).2
        = ((1000 : Nat) : Int) :=
  ⟨⟨by norm_num, by norm_num, by norm_num, by norm_num⟩,
    encodeInt_decodeInt 3 1000 10 (by norm_num) (by norm_num) (by norm_num) (by norm_num)⟩

/-- Counterexample to C5 as stated: `2^31` fits in 32 bits, but decoding the
32-bit field written by `encodeInt` returns the Int32-wrapped value
`-2^31`, not `2^31`: the accumulator `(n << bits) | chunk` of `decodeInt`
is an Int32. -/
theorem decodeInt_wraps_at_two_pow_31 :
    ¬ ((((((BitBuffer.new 0).seek 0).encodeInt ((2^31 : Nat) : Int) 32).seek 0).decodeInt 32).2
        = ((2^31 : Nat) : Int)) := by
  simp only [BitBuffer.encodeInt, BitBuffer.decodeInt, BitBuffer.seek, BitBuffer.new,
    encodeIntLoop_eq_fuel, decodeIntLoop_eq_fuel]
  decide

/-! ## Lossy param defaults (C7) -/

/-- C7 (amended): provided the default value is not a NaN pattern,
`encode(defaultValue)` is absent, and `decode` of a missing or empty
string is the default.  (`decode` of any other string is a total function
in this model: the `catch` arm of the source is unreachable because every
step of the pipeline is total.) -/
theorem lossyParam_default (defaultValue : Nat) (scheme : PrecisionScheme)
    (hnan : isNaNBits defaultValue = false) :
    (createLossyBase64Param defaultValue scheme).encode defaultValue
        = ParamEncodeResult.absent
      ∧ (createLossyBase64Param defaultValue scheme).decode none = defaultValue
      ∧ (createLossyBase64Param defaultValue scheme).decode (some []) = defaultValue := by
  refine ⟨?_, rfl, ?_⟩
  · simp [createLossyBase64Param, jsStrictEq, hnan]
  · simp [createLossyBase64Param]

/-- Witness for C7 at the non-NaN default `1.0` with scheme `5+16`. -/
theorem lossyParam_default_witness :
    isNaNBits (1023 * 2^52) = false
      ∧ ((createLossyBase64Param (1023 * 2^52) ⟨5, 16⟩).encode (1023 * 2^52)
            = ParamEncodeResult.absent
        ∧ (createLossyBase64Param (1023 * 2^52) ⟨5, 16⟩).decode none = 1023 * 2^52
        ∧ (createLossyBase64Param (1023 * 2^52) ⟨5, 16⟩).decode (some []) = 1023 * 2^52) :=
  ⟨by decide, lossyParam_default (1023 * 2^52) ⟨5, 16⟩ (by decide)⟩

/-- Counterexample to C7 as stated: with a NaN default, `value ===
defaultValue` is false even at `value = defaultValue`, so `encode` does
not omit the default (here it throws the range error instead, since NaN's
exponent overflows the scheme). -/
theorem lossyParam_nan_default_not_absent :
    (createLossyBase64Param (2047 * 2^52 + 1) ⟨5, 16⟩).encode (2047 * 2^52 + 1)
      ≠ ParamEncodeResult.absent := by
  decide

end UseParams
